import Mathlib

/-!
Verification development for the InsightBoard dependency-engine backend.

The definitions below are a shallow embedding of the transcript-to-task-graph
pipeline: the Zod task schema and validation (src/utils/task.schema.ts,
transcript.service.ts), the dependency sanitizer (src/utils/sanitizeDependencies.ts),
the DFS cycle detector (src/utils/detectCycles.ts), the SHA-256 content hash
(crypto.createHash("sha256"), FIPS 180-4), and the orchestrating
`processTranscript` with its in-memory cache and database store
(src/services/transcript.service.ts).  JavaScript `Map` objects are modelled
as insertion-ordered association lists with in-place overwrite (`mapSet`),
matching `Map.set`/`Map.get`/`Map.has` semantics.  The recursive DFS of
`detectCycles` is modelled as a fuel-indexed abstract machine (`dfsRun`) whose
frames defunctionalize the recursion: `Frame.call id` is entry into `dfs(id)`
and `Frame.loop id ns` is the neighbour loop of `dfs(id)` with `ns` still to
process.  Fuel exhaustion returns `none`; we prove separately that the fuel
supplied by `detectCyclesP` always suffices, so the model is total in the same
way the JavaScript recursion terminates.
-/

/-- Task priority enum, mirroring `z.enum(["low", "medium", "high"])`. -/
inductive Priority
  | low
  | medium
  | high
deriving DecidableEq

/-- Per-task cycle status, mirroring the TS union `"ok" | "error"`. -/
inductive Status
  | ok
  | error
deriving DecidableEq

/-- Validated task shape, mirroring `AiTask` from task.schema.ts. -/
structure AiTask where
  id : String
  dependencies : List String
  priority : Priority
deriving DecidableEq

/-- The `Task` type local to sanitizeDependencies.ts: only `id` and `dependencies`. -/
structure DepTask where
  id : String
  dependencies : List String
deriving DecidableEq

/-- The type `AiTaskWithStatus` from detectCycles.ts: an `AiTask` plus a status. -/
structure AiTaskWithStatus where
  id : String
  dependencies : List String
  priority : Priority
  status : Status
deriving DecidableEq

/-- Raw LLM output record (`MeetingTask` from llm.service.ts).  The LLM reply is
parsed with a plain `JSON.parse` and no runtime validation, so `priority` is an
arbitrary string and `dependencies` may be absent at runtime. -/
structure MeetingTask where
  id : String
  description : String
  priority : String
  dependencies : Option (List String)
deriving DecidableEq

/-- JavaScript `Map.set` on an insertion-ordered association list: the first
entry holding the key keeps its position and gets the new value; a fresh key is
appended at the end. -/
def mapSet {α : Type} : List (String × α) → String → α → List (String × α)
  | [], k, v => [(k, v)]
  | (k0, v0) :: rest, k, v =>
      if k0 = k then (k, v) :: rest else (k0, v0) :: mapSet rest k v

/-- Model of `sanitizeTaskDependencies` from sanitizeDependencies.ts: drop every
dependency id that is not the `id` of some task of the same batch. -/
def sanitizeTaskDependencies (tasks : List DepTask) : List DepTask :=
  let validIds := tasks.map (fun t => t.id)
  tasks.map fun task =>
    { task with dependencies := task.dependencies.filter (fun depId => validIds.contains depId) }

/-- DFS colors from detectCycles.ts (WHITE = 0, GRAY = 1, BLACK = 2). -/
inductive Color
  | white
  | gray
  | black
deriving DecidableEq

/-- Mutable state of `detectCycles`: the color map (total, defaulting to white,
mirroring `colors.get(id) ?? WHITE`), the set of cycle participants in insertion
order, and the explicit recursion stack. -/
structure DfsState where
  colors : String → Color
  cycleNodes : List String
  stack : List String

/-- Model of `adjacency.get(id) ?? []`. -/
def depsOf (adj : List (String × List String)) (id : String) : List String :=
  (List.lookup id adj).getD []

/-- Model of `adjacency.has(id)`. -/
def hasKey (adj : List (String × List String)) (id : String) : Bool :=
  (List.lookup id adj).isSome

/-- Model of `Set.add` on the insertion-ordered list of cycle nodes. -/
def addUnique (l : List String) (x : String) : List String :=
  if l.contains x then l else l ++ [x]

/-- Pointwise update of the color map (`colors.set(id, v)`). -/
def setColor (c : String → Color) (id : String) (v : Color) : String → Color :=
  fun k => if k = id then v else c k

/-- The GRAY-neighbour (back edge) branch of the DFS: if `n` occurs on the
recursion stack, record every node from its first occurrence up to the top of
the stack as a cycle participant (`stack.indexOf` + the marking loop). -/
def markCycle (st : DfsState) (n : String) : DfsState :=
  let i := st.stack.findIdx (fun x => x == n)
  if i < st.stack.length then
    { st with cycleNodes := (st.stack.drop i).foldl addUnique st.cycleNodes }
  else st

/-- Machine frames defunctionalizing the recursive `dfs`: `call id` is the
entry of `dfs(id)`; `loop id ns` is its neighbour loop with `ns` left. -/
inductive Frame
  | call : String → Frame
  | loop : String → List String → Frame
deriving DecidableEq

/-- One-step-at-a-time executor of the DFS of detectCycles.ts; `fuel` bounds
the number of machine steps, `none` meaning the fuel ran out. `call id` colors
`id` GRAY, pushes it and schedules its neighbour loop; an exhausted loop colors
its node BLACK and pops it; a loop step skips unknown ids, recurses into WHITE
neighbours, records a cycle on GRAY neighbours and ignores BLACK ones. -/
def dfsRun (adj : List (String × List String)) : Nat → List Frame → DfsState → Option DfsState
  | 0, _, _ => none
  | _ + 1, [], st => some st
  | fuel + 1, Frame.call id :: rest, st =>
      dfsRun adj fuel (Frame.loop id (depsOf adj id) :: rest)
        { st with colors := setColor st.colors id Color.gray, stack := st.stack ++ [id] }
  | fuel + 1, Frame.loop id [] :: rest, st =>
      dfsRun adj fuel rest
        { st with colors := setColor st.colors id Color.black, stack := st.stack.dropLast }
  | fuel + 1, Frame.loop id (n :: ns) :: rest, st =>
      if hasKey adj n then
        match st.colors n with
        | Color.white => dfsRun adj fuel (Frame.call n :: Frame.loop id ns :: rest) st
        | Color.gray => dfsRun adj fuel (Frame.loop id ns :: rest) (markCycle st n)
        | Color.black => dfsRun adj fuel (Frame.loop id ns :: rest) st
      else dfsRun adj fuel (Frame.loop id ns :: rest) st

/-- The top-level loop of `detectCycles`: launch a DFS from every node that is
still WHITE, in adjacency insertion order. -/
def visitAll (adj : List (String × List String)) (fuel : Nat) : List String → DfsState → Option DfsState
  | [], st => some st
  | k :: rest, st =>
      if st.colors k = Color.white then
        match dfsRun adj fuel [Frame.call k] st with
        | none => none
        | some st1 => visitAll adj fuel rest st1
      else visitAll adj fuel rest st

/-- Build the adjacency map (`adjacency.set(task.id, task.dependencies)`)
from (id, dependencies) pairs. -/
def buildAdj (ps : List (String × List String)) : List (String × List String) :=
  ps.foldl (fun m p => mapSet m p.1 p.2) []

/-- Fuel budget sufficient for the whole DFS (proved below): one step to enter
and one to leave each node, plus one step per edge. -/
def adjSize (adj : List (String × List String)) : Nat :=
  (adj.map (fun p => 2 + p.2.length)).sum

/-- The initial DFS state: every node WHITE, no cycle nodes, empty stack. -/
def initState : DfsState :=
  { colors := fun _ => Color.white, cycleNodes := [], stack := [] }

/-- Model of `detectCycles` at the level of (id, dependencies) pairs, returning the
insertion-ordered list of cycle-participant ids, or `none` on fuel exhaustion
(which never happens, as proved below). -/
def detectCyclesP (ps : List (String × List String)) : Option (List String) :=
  let adj := buildAdj ps
  (visitAll adj (1 + adjSize adj) (adj.map (fun p => p.1)) initState).map
    (fun st => st.cycleNodes)

/-- The (id, dependencies) graph data of a batch of validated tasks. -/
def taskPairs (tasks : List AiTask) : List (String × List String) :=
  tasks.map (fun t => (t.id, t.dependencies))

/-- Model of `detectCycles` from detectCycles.ts on a batch of `AiTask`s. -/
def detectCycles (tasks : List AiTask) : List String :=
  (detectCyclesP (taskPairs tasks)).getD []

/-- Model of `detectCycles` applied to the two-field task records of
sanitizeDependencies.ts (the shape `processTranscript` feeds the sanitizer). -/
def detectCyclesD (tasks : List DepTask) : List String :=
  (detectCyclesP (tasks.map (fun t => (t.id, t.dependencies)))).getD []

/-- Model of `markCyclicTasks` from detectCycles.ts: annotate every task with
`status = error` iff its id was recorded as a cycle participant. -/
def markCyclicTasks (tasks : List AiTask) : List AiTaskWithStatus :=
  let cycleIds := detectCycles tasks
  tasks.map fun task =>
    { id := task.id, dependencies := task.dependencies, priority := task.priority,
      status := if cycleIds.contains task.id then Status.error else Status.ok }

/-- The dependency-edge relation of a batch: task `u` of the batch lists `v`
among its dependencies. -/
def depEdge (tasks : List AiTask) (u v : String) : Prop :=
  ∃ t, t ∈ tasks ∧ t.id = u ∧ v ∈ t.dependencies

/-!  SHA-256 (FIPS 180-4), the algorithm behind
`crypto.createHash("sha256").update(transcript, "utf8").digest("hex")` in
`hashTranscript`.  32-bit words are `Nat`s reduced mod `2 ^ 32`. -/

/-- Rotation of a 32-bit word to the right by n bits, expressed with division
and remainder so the whole development stays in plain Nat arithmetic. -/
def rotr32 (n x : Nat) : Nat :=
  x % 2 ^ 32 / 2 ^ n + x % 2 ^ n * 2 ^ (32 - n)

/-- The `Ch` function: bitwise `(x AND y) XOR ((NOT x) AND z)`. -/
def ch32 (x y z : Nat) : Nat :=
  (x &&& y) ^^^ ((x ^^^ (2 ^ 32 - 1)) &&& z)

/-- The `Maj` function. -/
def maj32 (x y z : Nat) : Nat :=
  (x &&& y) ^^^ (x &&& z) ^^^ (y &&& z)

/-- Function capital sigma 0 of FIPS 180-4. -/
def bigSigma0 (x : Nat) : Nat := rotr32 2 x ^^^ rotr32 13 x ^^^ rotr32 22 x

/-- Function capital sigma 1 of FIPS 180-4. -/
def bigSigma1 (x : Nat) : Nat := rotr32 6 x ^^^ rotr32 11 x ^^^ rotr32 25 x

/-- Function small sigma 0 of FIPS 180-4. -/
def smallSigma0 (x : Nat) : Nat := rotr32 7 x ^^^ rotr32 18 x ^^^ ((x % 2 ^ 32) >>> 3)

/-- Function small sigma 1 of FIPS 180-4. -/
def smallSigma1 (x : Nat) : Nat := rotr32 17 x ^^^ rotr32 19 x ^^^ ((x % 2 ^ 32) >>> 10)

/-- The eight 32-bit working variables of the compression function. -/
structure Sha256State where
  a : Nat
  b : Nat
  c : Nat
  d : Nat
  e : Nat
  f : Nat
  g : Nat
  h : Nat
deriving DecidableEq

/-- The 64 round constants of SHA-256 (FIPS 180-4, in decimal). -/
def shaK : List Nat :=
  [1116352408, 1899447441, 3049323471, 3921009573,
   961987163, 1508970993, 2453635748, 2870763221,
   3624381080, 310598401, 607225278, 1426881987,
   1925078388, 2162078206, 2614888103, 3248222580,
   3835390401, 4022224774, 264347078, 604807628,
   770255983, 1249150122, 1555081692, 1996064986,
   2554220882, 2821834349, 2952996808, 3210313671,
   3336571891, 3584528711, 113926993, 338241895,
   666307205, 773529912, 1294757372, 1396182291,
   1695183700, 1986661051, 2177026350, 2456956037,
   2730485921, 2820302411, 3259730800, 3345764771,
   3516065817, 3600352804, 4094571909, 275423344,
   430227734, 506948616, 659060556, 883997877,
   958139571, 1322822218, 1537002063, 1747873779,
   1955562222, 2024104815, 2227730452, 2361852424,
   2428436474, 2756734187, 3204031479, 3329325298]

/-- The initial hash value of SHA-256 (FIPS 180-4, in decimal). -/
def shaInit : Sha256State :=
  ⟨1779033703, 3144134277, 1013904242, 2773480762,
   1359893119, 2600822924, 528734635, 1541459225⟩
/-- One compression round; `kw` packs the schedule word and the round constant. -/
def shaRound (st : Sha256State) (kw : Nat × Nat) : Sha256State :=
  let t1 := (st.h + bigSigma1 st.e + ch32 st.e st.f st.g + kw.1 + kw.2) % 2 ^ 32
  let t2 := (bigSigma0 st.a + maj32 st.a st.b st.c) % 2 ^ 32
  ⟨(t1 + t2) % 2 ^ 32, st.a, st.b, st.c, (st.d + t1) % 2 ^ 32, st.e, st.f, st.g⟩

/-- Big-endian packing of four bytes into a 32-bit word. -/
def word32 (b0 b1 b2 b3 : Nat) : Nat := ((b0 * 256 + b1) * 256 + b2) * 256 + b3

/-- The 16 initial schedule words of a 64-byte block. -/
def firstWords : List Nat → List Nat
  | b0 :: b1 :: b2 :: b3 :: rest => word32 b0 b1 b2 b3 :: firstWords rest
  | _ => []

/-- Extend the (reversed) schedule list by `k` further words. -/
def extendSchedule : Nat → List Nat → List Nat
  | 0, acc => acc
  | k + 1, acc =>
      extendSchedule k
        ((smallSigma1 (acc.getD 1 0) + acc.getD 6 0 + smallSigma0 (acc.getD 14 0) + acc.getD 15 0)
            % 2 ^ 32 :: acc)

/-- The full 64-word message schedule of one block. -/
def messageSchedule (block : List Nat) : List Nat :=
  (extendSchedule 48 (firstWords block).reverse).reverse

/-- Compress one 64-byte block into the running hash state. -/
def shaCompress (hs : Sha256State) (block : List Nat) : Sha256State :=
  let r := ((messageSchedule block).zip shaK).foldl shaRound hs
  ⟨(hs.a + r.a) % 2 ^ 32, (hs.b + r.b) % 2 ^ 32, (hs.c + r.c) % 2 ^ 32, (hs.d + r.d) % 2 ^ 32,
   (hs.e + r.e) % 2 ^ 32, (hs.f + r.f) % 2 ^ 32, (hs.g + r.g) % 2 ^ 32, (hs.h + r.h) % 2 ^ 32⟩

/-- Big-endian 64-bit encoding of the message bit length. -/
def be64 (n : Nat) : List Nat :=
  [n / 2 ^ 56 % 256, n / 2 ^ 48 % 256, n / 2 ^ 40 % 256, n / 2 ^ 32 % 256,
   n / 2 ^ 24 % 256, n / 2 ^ 16 % 256, n / 2 ^ 8 % 256, n % 256]

/-- SHA-256 padding: a 0x80 byte, zeros up to 56 mod 64, then the bit length. -/
def padMessage (msg : List Nat) : List Nat :=
  msg ++ 0x80 :: (List.replicate ((64 - (msg.length + 9) % 64) % 64) 0 ++ be64 (8 * msg.length))

/-- Split a byte list into 64-byte blocks (the first argument is fuel bounding
the number of blocks; `chunks` below supplies enough). -/
def chunksGo : Nat → List Nat → List (List Nat)
  | 0, _ => []
  | k + 1, l => if l.isEmpty then [] else l.take 64 :: chunksGo k (l.drop 64)

/-- Split a byte list into 64-byte blocks. -/
def chunks (l : List Nat) : List (List Nat) := chunksGo l.length l

/-- The eight 32-bit words of the SHA-256 digest of a byte string. -/
def sha256Words (msg : List Nat) : List Nat :=
  let final := (chunks (padMessage msg)).foldl shaCompress shaInit
  [final.a, final.b, final.c, final.d, final.e, final.f, final.g, final.h]

/-- UTF-8 encoding of one character as byte values. -/
def utf8EncodeCharNat (c : Char) : List Nat :=
  let n := c.toNat
  if n < 0x80 then [n]
  else if n < 0x800 then [0xc0 + n / 64, 0x80 + n % 64]
  else if n < 0x10000 then [0xe0 + n / 4096, 0x80 + n / 64 % 64, 0x80 + n % 64]
  else [0xf0 + n / 262144, 0x80 + n / 4096 % 64, 0x80 + n / 64 % 64, 0x80 + n % 64]

/-- UTF-8 byte values of a string (`Buffer.from(s, "utf8")`). -/
def utf8Bytes (s : String) : List Nat :=
  (s.data.map utf8EncodeCharNat).flatten

/-- Lowercase hex digit for a nibble. -/
def hexDigitChar (n : Nat) : Char :=
  if n < 10 then Char.ofNat (48 + n) else Char.ofNat (87 + n)

/-- Lowercase 8-digit hex rendering of a 32-bit word. -/
def hexWord32 (w : Nat) : List Char :=
  [hexDigitChar (w / 16 ^ 7 % 16), hexDigitChar (w / 16 ^ 6 % 16),
   hexDigitChar (w / 16 ^ 5 % 16), hexDigitChar (w / 16 ^ 4 % 16),
   hexDigitChar (w / 16 ^ 3 % 16), hexDigitChar (w / 16 ^ 2 % 16),
   hexDigitChar (w / 16 % 16), hexDigitChar (w % 16)]

/-- Model of `hashTranscript` from transcript.service.ts: the lowercase hex SHA-256
digest of the UTF-8 bytes of the transcript text. -/
def hashTranscript (transcript : String) : String :=
  String.mk (((sha256Words (utf8Bytes transcript)).map hexWord32).flatten)

/-!  The pipeline orchestrator of transcript.service.ts.  Throwing TS code is
modelled with `Except`; the two pipeline error kinds are the LLM transport
failure (`ProviderError`) and the Zod rejection (`ValidationError`).  The
in-process cache (`transcriptStore`), the Prisma transcript table and a clock
for `createdAt` form the explicit state; `processTranscript` also returns how
often it invoked the extraction collaborator. -/

/-- Pipeline failures: extraction transport errors and Zod validation errors. -/
inductive PipeErr
  | providerError : String → PipeErr
  | validationError : String → PipeErr
deriving DecidableEq

/-- Error-propagating `Array.map` (a thrown error aborts the whole map). -/
def exceptMapM {α β : Type} (f : α → Except PipeErr β) : List α → Except PipeErr (List β)
  | [] => Except.ok []
  | x :: xs =>
    match f x with
    | Except.error e => Except.error e
    | Except.ok y =>
      match exceptMapM f xs with
      | Except.error e => Except.error e
      | Except.ok ys => Except.ok (y :: ys)

/-- Model of the Zod priority enum check on a raw priority string. -/
def parsePriority (s : String) : Option Priority :=
  if s = "low" then some Priority.low
  else if s = "medium" then some Priority.medium
  else if s = "high" then some Priority.high
  else none

/-- Model of `aiTaskSchema.parse` on the candidate record
built by `validateTasksWithZod`: `id` and `dependencies` are already of the
right shape, so the schema check is the priority enum. -/
def parseAiTask (id : String) (dependencies : List String) (priority : String) :
    Except PipeErr AiTask :=
  match parsePriority priority with
  | some p => Except.ok ⟨id, dependencies, p⟩
  | none => Except.error (PipeErr.validationError priority)

/-- Model of `validateTasksWithZod` from transcript.service.ts: map every raw LLM task
to the candidate `{id, dependencies: task.dependencies ?? [], priority}` and
parse it with the Zod schema; the first failure aborts the whole batch. -/
def validateTasksWithZod (rawTasks : List MeetingTask) : Except PipeErr (List AiTask) :=
  exceptMapM (fun task => parseAiTask task.id (task.dependencies.getD []) task.priority) rawTasks

/-- A task as returned by the pipeline: graph data plus status plus the
human-readable description (`ProcessedTask`). -/
structure ProcessedTask where
  id : String
  dependencies : List String
  priority : Priority
  status : Status
  description : String
deriving DecidableEq

/-- The result record `TranscriptResult` from transcript.service.ts. -/
structure TranscriptResult where
  hash : String
  tasks : List ProcessedTask
  transcript : String
  createdAt : Nat
deriving DecidableEq

/-- The persisted `TaskStatus` enum (`ready`, `blocked`, `error`). -/
inductive DbStatus
  | ready
  | blocked
  | error
deriving DecidableEq

/-- A row of the task table. -/
structure DbTask where
  id : String
  description : String
  priority : Priority
  dependencies : List String
  status : DbStatus
deriving DecidableEq

/-- A row of the transcript table together with its owned tasks. -/
structure DbTranscript where
  hash : String
  content : String
  createdAt : Nat
  tasks : List DbTask
deriving DecidableEq

/-- Observable state of the service: the in-process cache keyed by hash, the
database table, and a clock supplying `createdAt` timestamps. -/
structure SysState where
  store : List (String × TranscriptResult)
  db : List DbTranscript
  clock : Nat
deriving DecidableEq

/-- Model of `mergeDescriptions` from transcript.service.ts: build a Map from raw task
id to description, then re-attach descriptions (missing ids default to ""). -/
def mergeDescriptions (tasksWithStatus : List AiTaskWithStatus) (rawTasks : List MeetingTask) :
    List ProcessedTask :=
  let descriptionById := rawTasks.foldl (fun m t => mapSet m t.id t.description) []
  tasksWithStatus.map fun t =>
    ⟨t.id, t.dependencies, t.priority, t.status, (List.lookup t.id descriptionById).getD ""⟩

/-- Status written to storage: error stays error, ok is persisted as ready. -/
def statusToDb : Status → DbStatus
  | Status.error => DbStatus.error
  | Status.ok => DbStatus.ready

/-- Status read back from storage: error maps to error, anything else to ok. -/
def statusFromDb : DbStatus → Status
  | DbStatus.error => Status.error
  | _ => Status.ok

/-- Translation of a stored transcript row into the result shape (used both on
the store-hit path and on the freshly created row). -/
def dbToResult (d : DbTranscript) : TranscriptResult :=
  ⟨d.hash,
   d.tasks.map (fun t => ⟨t.id, t.dependencies, t.priority, statusFromDb t.status, t.description⟩),
   d.content, d.createdAt⟩

/-- Model of `processTranscript` from transcript.service.ts.  `extract` is the
extraction collaborator (`extractTasksFromTranscript`); the returned `Nat`
counts how often it was invoked during this call.  Steps: hash; in-process
cache check; database check (caching a hit); extraction; Zod validation;
dependency sanitization (projected to `{id, dependencies}` records and merged
back by id); cycle detection; description merge; atomic persistence; caching
of the final result. -/
def processTranscript (extract : String → Except PipeErr (List MeetingTask))
    (transcript : String) (st : SysState) :
    Except PipeErr TranscriptResult × SysState × Nat :=
  let hash := hashTranscript transcript
  match List.lookup hash st.store with
  | some existing => (Except.ok existing, st, 0)
  | none =>
    match st.db.find? (fun d => d.hash == hash) with
    | some dbExisting =>
      let mapped := dbToResult dbExisting
      (Except.ok mapped, { st with store := mapSet st.store hash mapped }, 0)
    | none =>
      match extract transcript with
      | Except.error e => (Except.error e, st, 1)
      | Except.ok rawTasks =>
        match validateTasksWithZod rawTasks with
        | Except.error e => (Except.error e, st, 1)
        | Except.ok validatedTasks =>
          let sanitizedForGraph :=
            sanitizeTaskDependencies (validatedTasks.map (fun t => ⟨t.id, t.dependencies⟩))
          let sanitizedTasks : List AiTask := validatedTasks.map fun task =>
            { task with
              dependencies :=
                ((sanitizedForGraph.find? (fun s => s.id == task.id)).map
                    (fun s => s.dependencies)).getD task.dependencies }
          let tasksWithStatus := markCyclicTasks sanitizedTasks
          let finalTasks := mergeDescriptions tasksWithStatus rawTasks
          let dbCreated : DbTranscript :=
            ⟨hash, transcript, st.clock,
             finalTasks.map (fun t => ⟨t.id, t.description, t.priority, t.dependencies,
               statusToDb t.status⟩)⟩
          let result := dbToResult dbCreated
          (Except.ok result,
           { store := mapSet st.store hash result, db := st.db ++ [dbCreated],
             clock := st.clock + 1 }, 1)

/-!  Association-list (JavaScript `Map`) lemmas. -/

theorem lookup_mapSet {α : Type} (m : List (String × α)) (k : String) (v : α) (q : String) :
    List.lookup q (mapSet m k v) = if q = k then some v else List.lookup q m := by
  induction m with
  | nil =>
    by_cases hq : q = k
    · simp [mapSet, List.lookup, hq]
    · have hb : (q == k) = false := beq_eq_false_iff_ne.mpr hq
      simp [mapSet, List.lookup, hb, hq]
  | cons p rest ih =>
    obtain ⟨k0, v0⟩ := p
    by_cases h0 : k0 = k
    · subst h0
      by_cases hq : q = k0
      · simp [mapSet, List.lookup, hq]
      · have hb : (q == k0) = false := beq_eq_false_iff_ne.mpr hq
        simp [mapSet, List.lookup, hb, hq]
    · by_cases hq : q = k0
      · have hqk : ¬ q = k := by rw [hq]; exact h0
        have hb : (q == k0) = true := by rw [hq]; exact beq_self_eq_true k0
        simp [mapSet, List.lookup, h0, hb, hqk]
      · have hb : (q == k0) = false := beq_eq_false_iff_ne.mpr hq
        simp [mapSet, List.lookup, h0, hb, ih]
theorem mapSet_keys {α : Type} (m : List (String × α)) (k : String) (v : α) :
    (mapSet m k v).map Prod.fst =
      if k ∈ m.map Prod.fst then m.map Prod.fst else m.map Prod.fst ++ [k] := by
  induction m with
  | nil => simp [mapSet]
  | cons p rest ih =>
    obtain ⟨k0, v0⟩ := p
    by_cases h0 : k0 = k
    · subst h0
      simp [mapSet]
    · have hne : ¬ k = k0 := fun hc => h0 (hc ▸ rfl)
      by_cases hk : k ∈ rest.map Prod.fst <;> simp [mapSet, h0, hne, hk, ih]

theorem mapSet_keys_nodup {α : Type} (m : List (String × α)) (k : String) (v : α)
    (h : (m.map Prod.fst).Nodup) : ((mapSet m k v).map Prod.fst).Nodup := by
  rw [mapSet_keys]
  by_cases hk : k ∈ m.map Prod.fst
  · simpa [hk] using h
  · simp only [hk, if_false]
    simpa [List.nodup_append, hk] using h

theorem foldl_mapSet_keys_nodup {α : Type} (ps : List (String × α)) :
    ∀ m : List (String × α), (m.map Prod.fst).Nodup →
      (((ps.foldl (fun m p => mapSet m p.1 p.2) m)).map Prod.fst).Nodup := by
  induction ps with
  | nil => intro m h; simpa using h
  | cons p rest ih =>
    intro m h
    exact ih (mapSet m p.1 p.2) (mapSet_keys_nodup m p.1 p.2 h)

theorem buildAdj_keys_nodup (ps : List (String × List String)) :
    ((buildAdj ps).map Prod.fst).Nodup :=
  foldl_mapSet_keys_nodup ps [] (by simp)

theorem lookup_foldl_mapSet_mem {α : Type} (ps : List (String × α)) :
    ∀ (m : List (String × α)) (k : String) (v : α),
      List.lookup k (ps.foldl (fun m p => mapSet m p.1 p.2) m) = some v →
      (k, v) ∈ ps ∨ List.lookup k m = some v := by
  induction ps with
  | nil => intro m k v h; simpa using h
  | cons p rest ih =>
    intro m k v h
    rcases ih (mapSet m p.1 p.2) k v h with hmem | hlook
    · exact Or.inl (List.mem_cons_of_mem _ hmem)
    · rw [lookup_mapSet] at hlook
      by_cases hk : k = p.1
      · rw [if_pos hk] at hlook
        have hv : p.2 = v := by injection hlook
        have hp : (k, v) = p := by rw [hk, ← hv]
        refine Or.inl ?_
        rw [hp]
        exact List.mem_cons_self _ _
      · rw [if_neg hk] at hlook
        exact Or.inr hlook

theorem lookup_buildAdj_mem (ps : List (String × List String)) (k : String) (v : List String)
    (h : List.lookup k (buildAdj ps) = some v) : (k, v) ∈ ps := by
  rcases lookup_foldl_mapSet_mem ps [] k v h with hmem | hlook
  · exact hmem
  · simp [List.lookup] at hlook

theorem lookup_isSome_iff_mem_keys {α : Type} (m : List (String × α)) (k : String) :
    (List.lookup k m).isSome = true ↔ k ∈ m.map Prod.fst := by
  induction m with
  | nil => simp [List.lookup]
  | cons p rest ih =>
    obtain ⟨k0, v0⟩ := p
    by_cases hk : k = k0
    · simp [List.lookup, hk]
    · have hb : (k == k0) = false := beq_eq_false_iff_ne.mpr hk
      simp [List.lookup, hb, hk, ih]

theorem mem_keys_mapSet {α : Type} (m : List (String × α)) (k : String) (v : α) (q : String) :
    q ∈ (mapSet m k v).map Prod.fst ↔ q ∈ m.map Prod.fst ∨ q = k := by
  rw [mapSet_keys]
  by_cases hk : k ∈ m.map Prod.fst
  · rw [if_pos hk]
    constructor
    · exact fun h => Or.inl h
    · rintro (h | h)
      · exact h
      · rw [h]; exact hk
  · rw [if_neg hk, List.mem_append, List.mem_singleton]

theorem mem_keys_foldl_mapSet {α : Type} (ps : List (String × α)) :
    ∀ (m : List (String × α)) (q : String),
      (q ∈ ((ps.foldl (fun m p => mapSet m p.1 p.2) m)).map Prod.fst) ↔
        q ∈ m.map Prod.fst ∨ q ∈ ps.map Prod.fst := by
  induction ps with
  | nil => intro m q; simp
  | cons p rest ih =>
    intro m q
    rw [List.foldl_cons, ih, mem_keys_mapSet, List.map_cons, List.mem_cons]
    tauto

theorem mem_keys_buildAdj (ps : List (String × List String)) (q : String) :
    q ∈ (buildAdj ps).map Prod.fst ↔ q ∈ ps.map Prod.fst := by
  rw [buildAdj, mem_keys_foldl_mapSet]
  simp

theorem hasKey_buildAdj (ps : List (String × List String)) (q : String) :
    hasKey (buildAdj ps) q = (ps.map Prod.fst).contains q := by
  have h1 := lookup_isSome_iff_mem_keys (buildAdj ps) q
  have h2 := mem_keys_buildAdj ps q
  by_cases hq : q ∈ ps.map Prod.fst
  · have hl : hasKey (buildAdj ps) q = true := h1.mpr (h2.mpr hq)
    rw [hl]
    exact (List.elem_iff.mpr hq).symm
  · have hnot : ¬ q ∈ (buildAdj ps).map Prod.fst := fun hc => hq (h2.mp hc)
    have hl : ¬ hasKey (buildAdj ps) q = true := fun hc => hnot (h1.mp hc)
    rw [Bool.not_eq_true] at hl
    rw [hl]
    symm
    rw [← Bool.not_eq_true]
    intro hc
    exact hq (List.elem_iff.mp hc)

/-!  Claims about the Dependency Sanitizer and the annotation step. -/

/-- C3: the Dependency Sanitizer outputs the same tasks in the same order, each
with its id unchanged and its dependency list filtered to exactly those ids
that occur as some task's id in the batch, preserving the relative order of the
kept dependencies (the filtered list is a sublist of the original); hence every
dependency id in its output resolves to a task of the batch. -/
theorem sanitizeTaskDependencies_spec (tasks : List DepTask) :
    List.Forall₂
      (fun (out t : DepTask) =>
        out.id = t.id ∧
        out.dependencies =
          t.dependencies.filter (fun d => (tasks.map (fun x => x.id)).contains d) ∧
        out.dependencies.Sublist t.dependencies ∧
        ∀ d ∈ out.dependencies, d ∈ tasks.map (fun x => x.id))
      (sanitizeTaskDependencies tasks) tasks := by
  simp only [sanitizeTaskDependencies]
  rw [List.forall₂_map_left_iff, List.forall₂_same]
  intro t ht
  refine ⟨rfl, rfl, List.filter_sublist _, ?_⟩
  intro d hd
  have hmem := List.mem_filter.mp hd
  exact List.elem_iff.mp hmem.2

/-- Witness for C3 at a concrete batch with one resolvable and one dangling
dependency. -/
theorem sanitizeTaskDependencies_spec_witness :
    List.Forall₂
      (fun (out t : DepTask) =>
        out.id = t.id ∧
        out.dependencies =
          t.dependencies.filter
            (fun d => (([⟨"a", ["b", "zz"]⟩, ⟨"b", []⟩] : List DepTask).map
                (fun x => x.id)).contains d) ∧
        out.dependencies.Sublist t.dependencies ∧
        ∀ d ∈ out.dependencies,
          d ∈ ([⟨"a", ["b", "zz"]⟩, ⟨"b", []⟩] : List DepTask).map (fun x => x.id))
      (sanitizeTaskDependencies [⟨"a", ["b", "zz"]⟩, ⟨"b", []⟩])
      [⟨"a", ["b", "zz"]⟩, ⟨"b", []⟩] :=
  sanitizeTaskDependencies_spec [⟨"a", ["b", "zz"]⟩, ⟨"b", []⟩]

/-- C9: the annotation step `markCyclicTasks` changes only the status field:
stripping `status` from its output returns the input batch itself, so every
output task keeps the id, dependency list and priority of the corresponding
input task, in the same batch order (the input list is untouched, the model
being purely functional). -/
theorem markCyclicTasks_frame (tasks : List AiTask) :
    (markCyclicTasks tasks).map (fun t => AiTask.mk t.id t.dependencies t.priority) = tasks := by
  simp only [markCyclicTasks, List.map_map]
  have h : ∀ (l : List AiTask) (f : AiTask → AiTask), (∀ x, f x = x) → l.map f = l := by
    intro l f hf
    induction l with
    | nil => rfl
    | cons a l ih => rw [List.map_cons, hf, ih]
  exact h _ _ (fun x => rfl)

/-- C4: on the batch `A→B→C→A` plus `D→A`, the Cycle Detector marks A, B, C
with `error` and D with `ok`; on the empty batch it returns the empty list. -/
theorem detectCycles_concrete_cases :
    markCyclicTasks
        [⟨"A", ["B"], Priority.low⟩, ⟨"B", ["C"], Priority.low⟩,
         ⟨"C", ["A"], Priority.low⟩, ⟨"D", ["A"], Priority.low⟩] =
      [⟨"A", ["B"], Priority.low, Status.error⟩, ⟨"B", ["C"], Priority.low, Status.error⟩,
       ⟨"C", ["A"], Priority.low, Status.error⟩, ⟨"D", ["A"], Priority.low, Status.ok⟩] ∧
    markCyclicTasks ([] : List AiTask) = [] := by
  constructor
  · decide
  · decide

/-!  Claims about the orchestrator. -/

/-- After any successful `processTranscript` call, the in-process cache maps
the transcript's hash to the returned result, and extraction ran at most once. -/
theorem processTranscript_ok_cached
    (extract : String → Except PipeErr (List MeetingTask)) (transcript : String)
    (st : SysState) (r : TranscriptResult) (st1 : SysState) (n : Nat)
    (h : processTranscript extract transcript st = (Except.ok r, st1, n)) :
    List.lookup (hashTranscript transcript) st1.store = some r ∧ n ≤ 1 := by
  simp only [processTranscript] at h
  split at h
  case _ existing heq =>
    simp only [Prod.mk.injEq, Except.ok.injEq] at h
    obtain ⟨rfl, rfl, rfl⟩ := h
    exact ⟨heq, by omega⟩
  case _ heq =>
    split at h
    case _ dbExisting heq2 =>
      simp only [Prod.mk.injEq, Except.ok.injEq] at h
      obtain ⟨rfl, rfl, rfl⟩ := h
      constructor
      · rw [lookup_mapSet, if_pos rfl]
      · omega
    case _ heq2 =>
      split at h
      case _ e heq3 => simp only [Prod.mk.injEq] at h; exact absurd h.1 (by simp)
      case _ rawTasks heq3 =>
        split at h
        case _ e heq4 => simp only [Prod.mk.injEq] at h; exact absurd h.1 (by simp)
        case _ validatedTasks heq4 =>
          simp only [Prod.mk.injEq, Except.ok.injEq] at h
          obtain ⟨rfl, rfl, rfl⟩ := h
          constructor
          · rw [lookup_mapSet, if_pos rfl]
          · omega

/-- C2: idempotence of `processTranscript`.  If a call succeeds with result
`r` and post-state `st1`, a second sequential call on the same transcript
returns the identical result and state while invoking the extraction
collaborator zero times; the first call invoked it at most once, so extraction
runs at most once across both calls, the second being answered from the
in-memory cache the first one populated. -/
theorem processTranscript_idempotent
    (extract : String → Except PipeErr (List MeetingTask)) (transcript : String)
    (st : SysState) (r : TranscriptResult) (st1 : SysState) (n : Nat)
    (h : processTranscript extract transcript st = (Except.ok r, st1, n)) :
    processTranscript extract transcript st1 = (Except.ok r, st1, 0) ∧ n ≤ 1 := by
  obtain ⟨hc, hn⟩ := processTranscript_ok_cached extract transcript st r st1 n h
  refine ⟨?_, hn⟩
  simp only [processTranscript, hc]

/-- Witness for C2: a fresh transcript is processed once (one extraction
call); re-running the call on the resulting state returns the identical
result with zero extraction calls. -/
theorem processTranscript_idempotent_witness :
    processTranscript (fun _ => Except.ok []) "t"
        ⟨[(hashTranscript "t", ⟨hashTranscript "t", [], "t", 0⟩)],
         [⟨hashTranscript "t", "t", 0, []⟩], 1⟩ =
      (Except.ok ⟨hashTranscript "t", [], "t", 0⟩,
       ⟨[(hashTranscript "t", ⟨hashTranscript "t", [], "t", 0⟩)],
        [⟨hashTranscript "t", "t", 0, []⟩], 1⟩, 0) ∧ (1 : Nat) ≤ 1 :=
  processTranscript_idempotent (fun _ => Except.ok []) "t" ⟨[], [], 0⟩
    ⟨hashTranscript "t", [], "t", 0⟩
    ⟨[(hashTranscript "t", ⟨hashTranscript "t", [], "t", 0⟩)],
     [⟨hashTranscript "t", "t", 0, []⟩], 1⟩
    1 (by rfl)

/-- C6: atomicity on error.  Whenever `processTranscript` returns an error,
the observable state (cache, database, clock) is exactly the pre-call state;
moreover an extraction failure aborts the call with that `ProviderError`-class
error and a validation failure aborts it with that `ValidationError`. -/
theorem processTranscript_error_atomic
    (extract : String → Except PipeErr (List MeetingTask)) (transcript : String)
    (st : SysState) :
    (∀ e st2 n, processTranscript extract transcript st = (Except.error e, st2, n) → st2 = st) ∧
    (∀ e, List.lookup (hashTranscript transcript) st.store = none →
       st.db.find? (fun d => d.hash == hashTranscript transcript) = none →
       extract transcript = Except.error e →
       processTranscript extract transcript st = (Except.error e, st, 1)) ∧
    (∀ rawTasks e, List.lookup (hashTranscript transcript) st.store = none →
       st.db.find? (fun d => d.hash == hashTranscript transcript) = none →
       extract transcript = Except.ok rawTasks →
       validateTasksWithZod rawTasks = Except.error e →
       processTranscript extract transcript st = (Except.error e, st, 1)) := by
  refine ⟨?_, ?_, ?_⟩
  · intro e st2 n h
    simp only [processTranscript] at h
    split at h
    case _ existing heq => simp only [Prod.mk.injEq] at h; exact absurd h.1 (by simp)
    case _ heq =>
      split at h
      case _ dbExisting heq2 => simp only [Prod.mk.injEq] at h; exact absurd h.1 (by simp)
      case _ heq2 =>
        split at h
        case _ e2 heq3 =>
          simp only [Prod.mk.injEq] at h
          exact h.2.1.symm
        case _ rawTasks heq3 =>
          split at h
          case _ e2 heq4 =>
            simp only [Prod.mk.injEq] at h
            exact h.2.1.symm
          case _ validatedTasks heq4 =>
            simp only [Prod.mk.injEq] at h; exact absurd h.1 (by simp)
  · intro e h1 h2 h3
    simp only [processTranscript, h1, h2, h3]
  · intro rawTasks e h1 h2 h3 h4
    simp only [processTranscript, h1, h2, h3, h4]

/-- Witness for C6: a failing extraction collaborator aborts the call with its
error and leaves the (empty) state untouched. -/
theorem processTranscript_error_atomic_witness :
    processTranscript (fun _ => Except.error (PipeErr.providerError "boom")) "t" ⟨[], [], 0⟩ =
      (Except.error (PipeErr.providerError "boom"), ⟨[], [], 0⟩, 1) ∧
    (⟨[], [], 0⟩ : SysState) = ⟨[], [], 0⟩ :=
  have hthm := processTranscript_error_atomic
    (fun _ => Except.error (PipeErr.providerError "boom")) "t" ⟨[], [], 0⟩
  have hrun := hthm.2.1 (PipeErr.providerError "boom") rfl rfl rfl
  ⟨hrun, hthm.1 (PipeErr.providerError "boom") ⟨[], [], 0⟩ 1 hrun⟩

/-- A batch containing a task whose priority is outside the enum fails Zod
validation as a whole, with a `ValidationError`. -/
theorem validateTasksWithZod_error_of_bad_priority (raw : List MeetingTask) :
    (∃ t, t ∈ raw ∧ parsePriority t.priority = none) →
    ∃ e, validateTasksWithZod raw = Except.error (PipeErr.validationError e) := by
  induction raw with
  | nil => rintro ⟨t, ht, _⟩; cases ht
  | cons r rest ih =>
    rintro ⟨t, ht, hp⟩
    cases hpr : parsePriority r.priority with
    | none =>
      refine ⟨r.priority, ?_⟩
      simp [validateTasksWithZod, exceptMapM, parseAiTask, hpr]
    | some p =>
      rcases List.mem_cons.mp ht with rfl | hrest
      · rw [hp] at hpr; cases hpr
      · obtain ⟨e, he⟩ := ih ⟨t, hrest, hp⟩
        refine ⟨e, ?_⟩
        simp only [validateTasksWithZod, exceptMapM, parseAiTask, hpr] at he ⊢
        rw [he]

/-- C5: if any task record of an extracted batch has a priority outside the
exact set {"low", "medium", "high"}, Zod validation fails for the whole batch
with a validation error and the pipeline returns no result for that batch;
an absent `dependencies` field, by contrast, is defaulted to the empty list
and the record validates. -/
theorem validation_rejects_invalid_priority :
    (∀ raw : List MeetingTask,
       (∃ t, t ∈ raw ∧ parsePriority t.priority = none) →
       ∃ e, validateTasksWithZod raw = Except.error (PipeErr.validationError e)) ∧
    (∀ (extract : String → Except PipeErr (List MeetingTask)) (transcript : String)
       (st : SysState) (raw : List MeetingTask),
       List.lookup (hashTranscript transcript) st.store = none →
       st.db.find? (fun d => d.hash == hashTranscript transcript) = none →
       extract transcript = Except.ok raw →
       (∃ t, t ∈ raw ∧ parsePriority t.priority = none) →
       ∃ e, (processTranscript extract transcript st).1 =
         Except.error (PipeErr.validationError e)) ∧
    (∀ (t : MeetingTask) (p : Priority), parsePriority t.priority = some p →
       t.dependencies = none →
       validateTasksWithZod [t] = Except.ok [⟨t.id, [], p⟩]) := by
  refine ⟨validateTasksWithZod_error_of_bad_priority, ?_, ?_⟩
  · intro extract transcript st raw h1 h2 h3 hbad
    obtain ⟨e, he⟩ := validateTasksWithZod_error_of_bad_priority raw hbad
    refine ⟨e, ?_⟩
    simp only [processTranscript, h1, h2, h3, he]
  · intro t p hp hd
    simp [validateTasksWithZod, exceptMapM, parseAiTask, hp, hd]

/-- Witness for C5: priority "urgent" fails a one-task batch and makes the
pipeline return a validation error; a task with priority "low" and no
dependencies field validates with dependencies defaulted to []. -/
theorem validation_rejects_invalid_priority_witness :
    (∃ e, validateTasksWithZod [⟨"1", "d", "urgent", none⟩] =
       Except.error (PipeErr.validationError e)) ∧
    (∃ e, (processTranscript (fun _ => Except.ok [⟨"1", "d", "urgent", none⟩]) "t"
         ⟨[], [], 0⟩).1 = Except.error (PipeErr.validationError e)) ∧
    validateTasksWithZod [⟨"2", "d", "low", none⟩] = Except.ok [⟨"2", [], Priority.low⟩] :=
  have hthm := validation_rejects_invalid_priority
  ⟨hthm.1 [⟨"1", "d", "urgent", none⟩] ⟨⟨"1", "d", "urgent", none⟩, by simp, by decide⟩,
   hthm.2.1 (fun _ => Except.ok [⟨"1", "d", "urgent", none⟩]) "t" ⟨[], [], 0⟩
     [⟨"1", "d", "urgent", none⟩] rfl rfl rfl
     ⟨⟨"1", "d", "urgent", none⟩, by simp, by decide⟩,
   hthm.2.2 ⟨"2", "d", "low", none⟩ Priority.low (by decide) rfl⟩

/-!  Cycle-detector metatheory, part 1: the machine never runs out of the fuel
`detectCyclesP` supplies (the recursion of detectCycles.ts terminates). -/

theorem markCycle_colors (st : DfsState) (n : String) : (markCycle st n).colors = st.colors := by
  unfold markCycle
  dsimp only
  split <;> rfl

theorem markCycle_stack (st : DfsState) (n : String) : (markCycle st n).stack = st.stack := by
  unfold markCycle
  dsimp only
  split <;> rfl

theorem setColor_self (c : String → Color) (id : String) (v : Color) :
    setColor c id v id = v := by
  simp [setColor]

theorem setColor_other (c : String → Color) (id : String) (v : Color) (k : String)
    (h : k ≠ id) : setColor c id v k = c k := by
  simp [setColor, h]

theorem lookup_mem {α : Type} (m : List (String × α)) (k : String) (v : α)
    (h : List.lookup k m = some v) : (k, v) ∈ m := by
  induction m with
  | nil => simp [List.lookup] at h
  | cons p rest ih =>
    obtain ⟨k0, v0⟩ := p
    by_cases hk : k = k0
    · subst hk
      simp [List.lookup] at h
      rw [← h]
      exact List.mem_cons_self _ _
    · have hb : (k == k0) = false := beq_eq_false_iff_ne.mpr hk
      simp [List.lookup, hb] at h
      exact List.mem_cons_of_mem _ (ih h)

/-- The part of the fuel budget still chargeable to WHITE nodes. -/
def whiteBudget (adj : List (String × List String)) (c : String → Color) : Nat :=
  match adj with
  | [] => 0
  | p :: rest => (if c p.1 = Color.white then 2 + p.2.length else 0) + whiteBudget rest c

theorem whiteBudget_le_adjSize (adj : List (String × List String)) (c : String → Color) :
    whiteBudget adj c ≤ adjSize adj := by
  induction adj with
  | nil => simp [whiteBudget, adjSize]
  | cons p rest ih =>
    have hs : adjSize (p :: rest) = (2 + p.2.length) + adjSize rest := by
      simp [adjSize]
    rw [hs]
    unfold whiteBudget
    split <;> omega

theorem whiteBudget_mono (adj : List (String × List String)) (c1 c2 : String → Color)
    (h : ∀ k, c1 k = Color.white → c2 k = Color.white) :
    whiteBudget adj c1 ≤ whiteBudget adj c2 := by
  induction adj with
  | nil => simp [whiteBudget]
  | cons p rest ih =>
    unfold whiteBudget
    by_cases h1 : c1 p.1 = Color.white
    · rw [if_pos h1, if_pos (h p.1 h1)]
      omega
    · rw [if_neg h1]
      split <;> omega

theorem whiteBudget_congr (adj : List (String × List String)) (c1 c2 : String → Color)
    (h : ∀ p ∈ adj, (c1 p.1 = Color.white ↔ c2 p.1 = Color.white)) :
    whiteBudget adj c1 = whiteBudget adj c2 := by
  induction adj with
  | nil => simp [whiteBudget]
  | cons p rest ih =>
    unfold whiteBudget
    have hhead := h p (List.mem_cons_self _ _)
    have htail := ih (fun q hq => h q (List.mem_cons_of_mem _ hq))
    by_cases h1 : c1 p.1 = Color.white
    · rw [if_pos h1, if_pos (hhead.mp h1), htail]
    · rw [if_neg h1, if_neg (fun hc => h1 (hhead.mpr hc)), htail]

theorem whiteBudget_setColor (adj : List (String × List String))
    (hnd : (adj.map Prod.fst).Nodup) (id : String) (deps : List String)
    (hmem : (id, deps) ∈ adj) (c : String → Color) (hw : c id = Color.white)
    (v : Color) (hv : v ≠ Color.white) :
    whiteBudget adj (setColor c id v) + (2 + deps.length) = whiteBudget adj c := by
  induction adj with
  | nil => cases hmem
  | cons p rest ih =>
    simp only [List.map_cons, List.nodup_cons] at hnd
    obtain ⟨hp, hndr⟩ := hnd
    rcases List.mem_cons.mp hmem with hpe | hmr
    · have hid : p.1 = id := by rw [← hpe]
      have hdeps : p.2 = deps := by rw [← hpe]
      have htail : whiteBudget rest (setColor c id v) = whiteBudget rest c := by
        apply whiteBudget_congr
        intro q hq
        have hq1 : q.1 ≠ id := by
          intro hc
          apply hp
          rw [hid, ← hc]
          exact List.mem_map.mpr ⟨q, hq, rfl⟩
        rw [setColor_other c id v q.1 hq1]
      unfold whiteBudget
      rw [htail, hid, setColor_self, if_neg hv, if_pos hw, hdeps]
      omega
    · have hp1 : p.1 ≠ id := by
        intro hc
        apply hp
        rw [hc]
        exact List.mem_map.mpr ⟨(id, deps), hmr, rfl⟩
      have hih := ih hndr hmr
      unfold whiteBudget
      rw [setColor_other c id v p.1 hp1]
      split <;> omega

/-- All frames of the list are loop frames. -/
def allLoops (w : List Frame) : Prop := ∀ fr ∈ w, ∃ i ds, fr = Frame.loop i ds

/-- Reachable work lists: only the head may be a `call`, and a head `call`
targets a WHITE node of the graph. -/
def framesOK (adj : List (String × List String)) (c : String → Color) : List Frame → Prop
  | [] => True
  | Frame.call cid :: rest => c cid = Color.white ∧ hasKey adj cid = true ∧ allLoops rest
  | Frame.loop _ _ :: rest => allLoops rest

/-- Steps chargeable to a frame. -/
def frameSize : Frame → Nat
  | Frame.call _ => 0
  | Frame.loop _ l => 1 + l.length

/-- Steps chargeable to a work list. -/
def workSize (w : List Frame) : Nat := (w.map frameSize).sum

theorem framesOK_of_allLoops (adj : List (String × List String)) (c : String → Color)
    (w : List Frame) (h : allLoops w) : framesOK adj c w := by
  cases w with
  | nil => trivial
  | cons fr rest =>
    cases fr with
    | call cid =>
      obtain ⟨i, ds, he⟩ := h _ (List.mem_cons_self _ _)
      cases he
    | loop i ds =>
      show allLoops rest
      exact fun fr2 h2 => h fr2 (List.mem_cons_of_mem _ h2)

/-- Fuel sufficiency: on a well-formed work list, the machine finishes within
the measure `1 + workSize + whiteBudget`. -/
theorem dfsRun_isSome (adj : List (String × List String))
    (hnd : (adj.map Prod.fst).Nodup) :
    ∀ (fuel : Nat) (w : List Frame) (st : DfsState), framesOK adj st.colors w →
      1 + workSize w + whiteBudget adj st.colors ≤ fuel →
      (dfsRun adj fuel w st).isSome = true := by
  intro fuel
  induction fuel with
  | zero => intro w st _ hm; omega
  | succ fuel ih =>
    intro w st hok hm
    match w with
    | [] => simp [dfsRun]
    | Frame.call id :: rest =>
      obtain ⟨hwhite, hkey, hloops⟩ := hok
      obtain ⟨deps, hdeps⟩ := Option.isSome_iff_exists.mp hkey
      have hdepsOf : depsOf adj id = deps := by simp [depsOf, hdeps]
      have hmem : (id, deps) ∈ adj := lookup_mem adj id deps hdeps
      have hstep : dfsRun adj (fuel + 1) (Frame.call id :: rest) st =
          dfsRun adj fuel (Frame.loop id (depsOf adj id) :: rest)
            { st with colors := setColor st.colors id Color.gray,
                      stack := st.stack ++ [id] } := rfl
      rw [hstep]
      apply ih
      · exact hloops
      · have hbud := whiteBudget_setColor adj hnd id deps hmem st.colors hwhite Color.gray
          (by intro hc; cases hc)
        have hws : workSize (Frame.loop id (depsOf adj id) :: rest) =
            1 + deps.length + workSize rest := by
          simp [workSize, frameSize, hdepsOf]
        have hws0 : workSize (Frame.call id :: rest) = workSize rest := by
          simp [workSize, frameSize]
        rw [hws]
        rw [hws0] at hm
        dsimp only
        omega
    | Frame.loop id [] :: rest =>
      have hstep : dfsRun adj (fuel + 1) (Frame.loop id [] :: rest) st =
          dfsRun adj fuel rest
            { st with colors := setColor st.colors id Color.black,
                      stack := st.stack.dropLast } := rfl
      rw [hstep]
      apply ih
      · exact framesOK_of_allLoops _ _ _ (show allLoops rest from hok)
      · have hbud : whiteBudget adj (setColor st.colors id Color.black) ≤
            whiteBudget adj st.colors := by
          apply whiteBudget_mono
          intro k hk
          by_cases h : k = id
          · rw [h, setColor_self] at hk; cases hk
          · rw [setColor_other _ _ _ _ h] at hk; exact hk
        have hws : workSize (Frame.loop id [] :: rest) = 1 + workSize rest := by
          simp [workSize, frameSize]
        rw [hws] at hm
        dsimp only
        omega
    | Frame.loop id (n :: ns) :: rest =>
      have hloops : allLoops rest := hok
      have hws : workSize (Frame.loop id (n :: ns) :: rest) =
          2 + ns.length + workSize rest := by
        simp [workSize, frameSize]
        omega
      rw [hws] at hm
      have hwsNext : workSize (Frame.loop id ns :: rest) = 1 + ns.length + workSize rest := by
        simp [workSize, frameSize]
      by_cases hk : hasKey adj n = true
      · cases hcn : st.colors n with
        | white =>
          have hstep : dfsRun adj (fuel + 1) (Frame.loop id (n :: ns) :: rest) st =
              dfsRun adj fuel (Frame.call n :: Frame.loop id ns :: rest) st := by
            simp [dfsRun, hk, hcn]
          rw [hstep]
          apply ih
          · refine ⟨hcn, hk, ?_⟩
            intro fr hfr
            rcases List.mem_cons.mp hfr with rfl | h2
            · exact ⟨id, ns, rfl⟩
            · exact hloops fr h2
          · have hws2 : workSize (Frame.call n :: Frame.loop id ns :: rest) =
                1 + ns.length + workSize rest := by
              simp [workSize, frameSize]
            omega
        | gray =>
          have hstep : dfsRun adj (fuel + 1) (Frame.loop id (n :: ns) :: rest) st =
              dfsRun adj fuel (Frame.loop id ns :: rest) (markCycle st n) := by
            simp [dfsRun, hk, hcn]
          rw [hstep]
          apply ih
          · exact hloops
          · rw [markCycle_colors, hwsNext]
            omega
        | black =>
          have hstep : dfsRun adj (fuel + 1) (Frame.loop id (n :: ns) :: rest) st =
              dfsRun adj fuel (Frame.loop id ns :: rest) st := by
            simp [dfsRun, hk, hcn]
          rw [hstep]
          apply ih
          · exact hloops
          · rw [hwsNext]
            omega
      · have hkf : hasKey adj n = false := by
          rw [Bool.not_eq_true] at hk; exact hk
        have hstep : dfsRun adj (fuel + 1) (Frame.loop id (n :: ns) :: rest) st =
            dfsRun adj fuel (Frame.loop id ns :: rest) st := by
          simp [dfsRun, hkf]
        rw [hstep]
        apply ih
        · exact hloops
        · rw [hwsNext]
          omega

/-- The top-level loop finishes on any key list with the fuel
`1 + adjSize adj`. -/
theorem visitAll_isSome (adj : List (String × List String))
    (hnd : (adj.map Prod.fst).Nodup) :
    ∀ (keys : List String) (st : DfsState), (∀ k ∈ keys, hasKey adj k = true) →
      (visitAll adj (1 + adjSize adj) keys st).isSome = true := by
  intro keys
  induction keys with
  | nil => intro st _; simp [visitAll]
  | cons k rest ih =>
    intro st hkeys
    by_cases hw : st.colors k = Color.white
    · have hrun := dfsRun_isSome adj hnd (1 + adjSize adj) [Frame.call k] st
        ⟨hw, hkeys k (List.mem_cons_self _ _), by intro fr hfr; cases hfr⟩
        (by
          have hb := whiteBudget_le_adjSize adj st.colors
          simp only [workSize, List.map_cons, List.map_nil, frameSize, List.sum_cons,
            List.sum_nil]
          omega)
      obtain ⟨st1, hst1⟩ := Option.isSome_iff_exists.mp hrun
      have hstep : visitAll adj (1 + adjSize adj) (k :: rest) st =
          visitAll adj (1 + adjSize adj) rest st1 := by
        simp [visitAll, hw, hst1]
      rw [hstep]
      exact ih st1 (fun q hq => hkeys q (List.mem_cons_of_mem _ hq))
    · have hstep : visitAll adj (1 + adjSize adj) (k :: rest) st =
          visitAll adj (1 + adjSize adj) rest st := by
        simp [visitAll, hw]
      rw [hstep]
      exact ih st (fun q hq => hkeys q (List.mem_cons_of_mem _ hq))

/-- C7: the Cycle Detector returns normally on every batch, including batches
whose tasks still contain dependency ids that resolve to no task of the batch:
the machine never exhausts its fuel (the recursion of detectCycles.ts always
terminates, dangling edges being skipped, never a failure). -/
theorem detectCycles_never_fails (tasks : List AiTask) :
    (detectCyclesP (taskPairs tasks)).isSome = true := by
  have h := visitAll_isSome (buildAdj (taskPairs tasks)) (buildAdj_keys_nodup _)
    ((buildAdj (taskPairs tasks)).map Prod.fst) initState
    (fun k hk => (lookup_isSome_iff_mem_keys _ k).mpr hk)
  simp only [detectCyclesP]
  obtain ⟨st1, hst1⟩ := Option.isSome_iff_exists.mp h
  rw [hst1]
  rfl

/-!  Cycle-detector metatheory, part 2: soundness — every id the machine
records in `cycleNodes` lies on a directed cycle of the adjacency graph. -/

/-- Invariant tying the work list to the recursion stack: reading the pending
loop frames from the innermost out, their ids spell the stack; the stack is a
chain of dependency edges; a pending `call` extends that chain by one edge. -/
inductive WorkInv (adj : List (String × List String)) : List Frame → List String → Prop
  | nil (s : List String) : s = [] → WorkInv adj [] s
  | loop (id : String) (l : List String) (work : List Frame) (stack s : List String) :
      s = stack ++ [id] →
      (∀ n ∈ l, n ∈ depsOf adj id) →
      List.Chain' (fun a b => b ∈ depsOf adj a) s →
      WorkInv adj work stack →
      WorkInv adj (Frame.loop id l :: work) s
  | call (c : String) (work : List Frame) (s : List String) :
      List.Chain' (fun a b => b ∈ depsOf adj a) (s ++ [c]) →
      WorkInv adj work s →
      WorkInv adj (Frame.call c :: work) s

theorem chain_rtg_head {R : String → String → Prop} :
    ∀ (t : List String) (a x : String), List.Chain' R (a :: t) → x ∈ a :: t →
      Relation.ReflTransGen R a x := by
  intro t
  induction t with
  | nil =>
    intro a x _ hx
    rcases List.mem_singleton.mp hx with rfl
    exact Relation.ReflTransGen.refl
  | cons b t ih =>
    intro a x hch hx
    rcases List.mem_cons.mp hx with rfl | hx2
    · exact Relation.ReflTransGen.refl
    · have hab : R a b := (List.chain'_cons.mp hch).1
      have hcht : List.Chain' R (b :: t) := (List.chain'_cons.mp hch).2
      exact Relation.ReflTransGen.head hab (ih b x hcht hx2)

theorem chain_rtg_last {R : String → String → Prop} :
    ∀ (l : List String) (x z : String), List.Chain' R l → x ∈ l →
      l.getLast? = some z → Relation.ReflTransGen R x z := by
  intro l
  induction l with
  | nil => intro x z _ hx _; cases hx
  | cons a t ih =>
    intro x z hch hx hlast
    cases t with
    | nil =>
      rcases List.mem_singleton.mp hx with rfl
      have hz : x = z := by
        simp [List.getLast?] at hlast
        exact hlast
      rw [hz]
    | cons b t2 =>
      have hab : R a b := (List.chain'_cons.mp hch).1
      have hcht : List.Chain' R (b :: t2) := (List.chain'_cons.mp hch).2
      have hlast2 : (b :: t2).getLast? = some z := by
        rw [← hlast]
        rfl
      rcases List.mem_cons.mp hx with rfl | hx2
      · exact Relation.ReflTransGen.head hab
          (ih b z hcht (List.mem_cons_self _ _) hlast2)
      · exact ih x z hcht hx2 hlast2

theorem findIdx_drop_eq (s : List String) (n : String)
    (h : s.findIdx (fun x => x == n) < s.length) :
    ∃ t, s.drop (s.findIdx (fun x => x == n)) = n :: t := by
  induction s with
  | nil => simp at h
  | cons a s ih =>
    by_cases ha : (a == n) = true
    · have h0 : (a :: s).findIdx (fun x => x == n) = 0 := by
        simp [List.findIdx_cons, ha]
      refine ⟨s, ?_⟩
      rw [h0, List.drop_zero]
      rw [eq_of_beq ha]
    · have haf : (a == n) = false := by rw [Bool.not_eq_true] at ha; exact ha
      have h0 : (a :: s).findIdx (fun x => x == n) = s.findIdx (fun x => x == n) + 1 := by
        simp [List.findIdx_cons, haf]
      rw [h0] at h ⊢
      simp only [List.drop_succ_cons]
      exact ih (by simpa using h)

theorem mem_foldl_addUnique (l : List String) :
    ∀ (acc : List String) (x : String), x ∈ l.foldl addUnique acc → x ∈ acc ∨ x ∈ l := by
  induction l with
  | nil => intro acc x h; exact Or.inl h
  | cons a l ih =>
    intro acc x h
    rcases ih (addUnique acc a) x h with hacc | hl
    · unfold addUnique at hacc
      split at hacc
      · exact Or.inl hacc
      · rcases List.mem_append.mp hacc with h1 | h1
        · exact Or.inl h1
        · rcases List.mem_singleton.mp h1 with rfl
          exact Or.inr (List.mem_cons_self _ _)
    · exact Or.inr (List.mem_cons_of_mem _ hl)

theorem markCycle_sound (adj : List (String × List String)) (st : DfsState) (n id : String)
    (hsound : ∀ x ∈ st.cycleNodes, Relation.TransGen (fun a b => b ∈ depsOf adj a) x x)
    (hchain : List.Chain' (fun a b => b ∈ depsOf adj a) st.stack)
    (hlast : st.stack.getLast? = some id)
    (hedge : n ∈ depsOf adj id) :
    ∀ x ∈ (markCycle st n).cycleNodes,
      Relation.TransGen (fun a b => b ∈ depsOf adj a) x x := by
  unfold markCycle
  dsimp only
  split
  case isTrue hidx =>
    intro x hx
    dsimp only at hx
    rcases mem_foldl_addUnique _ _ _ hx with hold | hseg
    · exact hsound x hold
    · obtain ⟨t, hdrop⟩ := findIdx_drop_eq st.stack n hidx
      rw [hdrop] at hseg
      have hsplit : st.stack.take (st.stack.findIdx fun x => x == n) ++ (n :: t) = st.stack := by
        rw [← hdrop]
        exact List.take_append_drop _ _
      have hchain2 : List.Chain' (fun a b => b ∈ depsOf adj a) (n :: t) := by
        rw [← hsplit] at hchain
        exact (List.chain'_append.mp hchain).2.1
      have hlast2 : (n :: t).getLast? = some id := by
        rw [← hsplit, List.getLast?_append] at hlast
        cases hgl : (n :: t).getLast? with
        | none => simp [List.getLast?_eq_none_iff] at hgl
        | some w =>
          rw [hgl] at hlast
          simp only [Option.or_some] at hlast
          exact hlast
      have h1 : Relation.ReflTransGen (fun a b => b ∈ depsOf adj a) n x :=
        chain_rtg_head t n x hchain2 hseg
      have h2 : Relation.ReflTransGen (fun a b => b ∈ depsOf adj a) x id :=
        chain_rtg_last (n :: t) x id hchain2 hseg hlast2
      exact Relation.TransGen.trans_left (Relation.TransGen.tail' h2 hedge) h1
  case isFalse =>
    intro x hx
    exact hsound x hx

/-- Machine soundness: starting from a sound state whose stack satisfies the
work invariant, a finished run yields a sound `cycleNodes` set and ends with an
empty stack. -/
theorem dfsRun_sound (adj : List (String × List String)) :
    ∀ (fuel : Nat) (w : List Frame) (st st1 : DfsState), WorkInv adj w st.stack →
      (∀ x ∈ st.cycleNodes, Relation.TransGen (fun a b => b ∈ depsOf adj a) x x) →
      dfsRun adj fuel w st = some st1 →
      (∀ x ∈ st1.cycleNodes, Relation.TransGen (fun a b => b ∈ depsOf adj a) x x) ∧
        st1.stack = [] := by
  intro fuel
  induction fuel with
  | zero => intro w st st1 _ _ h; cases h
  | succ fuel ih =>
    intro w st st1 hinv hsound hrun
    match w with
    | [] =>
      have heq : st = st1 := by
        have : some st = some st1 := hrun
        injection this
      subst heq
      cases hinv with
      | nil s hs => exact ⟨hsound, hs⟩
    | Frame.call cid :: rest =>
      cases hinv with
      | call _ _ _ hchain hrest =>
        have hstep : dfsRun adj (fuel + 1) (Frame.call cid :: rest) st =
            dfsRun adj fuel (Frame.loop cid (depsOf adj cid) :: rest)
              { st with colors := setColor st.colors cid Color.gray,
                        stack := st.stack ++ [cid] } := rfl
        rw [hstep] at hrun
        refine ih _ _ _ ?_ ?_ hrun
        · exact WorkInv.loop cid (depsOf adj cid) rest st.stack (st.stack ++ [cid]) rfl
            (fun n hn => hn) hchain hrest
        · exact hsound
    | Frame.loop id [] :: rest =>
      cases hinv with
      | loop _ _ _ stack0 _ hs hsub hchain hrest =>
        have hstep : dfsRun adj (fuel + 1) (Frame.loop id [] :: rest) st =
            dfsRun adj fuel rest
              { st with colors := setColor st.colors id Color.black,
                        stack := st.stack.dropLast } := rfl
        rw [hstep] at hrun
        refine ih _ _ _ ?_ ?_ hrun
        · have hpop : st.stack.dropLast = stack0 := by
            rw [hs]
            exact List.dropLast_concat ..
          show WorkInv adj rest st.stack.dropLast
          rw [hpop]
          exact hrest
        · exact hsound
    | Frame.loop id (n :: ns) :: rest =>
      cases hinv with
      | loop _ _ _ stack0 _ hs hsub hchain hrest =>
        have hlast : st.stack.getLast? = some id := by
          rw [hs]
          exact List.getLast?_concat stack0
        have hedge : n ∈ depsOf adj id := hsub n (List.mem_cons_self _ _)
        have hsub2 : ∀ q ∈ ns, q ∈ depsOf adj id :=
          fun q hq => hsub q (List.mem_cons_of_mem _ hq)
        have hinvNext : WorkInv adj (Frame.loop id ns :: rest) st.stack :=
          WorkInv.loop id ns rest stack0 st.stack hs hsub2 hchain hrest
        by_cases hk : hasKey adj n = true
        · cases hcn : st.colors n with
          | white =>
            have hstep : dfsRun adj (fuel + 1) (Frame.loop id (n :: ns) :: rest) st =
                dfsRun adj fuel (Frame.call n :: Frame.loop id ns :: rest) st := by
              simp [dfsRun, hk, hcn]
            rw [hstep] at hrun
            refine ih _ _ _ ?_ ?_ hrun
            · refine WorkInv.call n (Frame.loop id ns :: rest) st.stack ?_ hinvNext
              rw [List.chain'_append]
              refine ⟨hchain, List.chain'_singleton n, ?_⟩
              intro a ha b hb
              rw [hlast] at ha
              simp only [List.head?_cons, Option.mem_def, Option.some.injEq] at ha hb
              rw [← ha, ← hb]
              exact hedge
            · exact hsound
          | gray =>
            have hstep : dfsRun adj (fuel + 1) (Frame.loop id (n :: ns) :: rest) st =
                dfsRun adj fuel (Frame.loop id ns :: rest) (markCycle st n) := by
              simp [dfsRun, hk, hcn]
            rw [hstep] at hrun
            refine ih _ _ _ ?_ ?_ hrun
            · show WorkInv adj (Frame.loop id ns :: rest) (markCycle st n).stack
              rw [markCycle_stack]
              exact hinvNext
            · exact markCycle_sound adj st n id hsound hchain hlast hedge
          | black =>
            have hstep : dfsRun adj (fuel + 1) (Frame.loop id (n :: ns) :: rest) st =
                dfsRun adj fuel (Frame.loop id ns :: rest) st := by
              simp [dfsRun, hk, hcn]
            rw [hstep] at hrun
            exact ih _ _ _ hinvNext hsound hrun
        · have hkf : hasKey adj n = false := by
            rw [Bool.not_eq_true] at hk; exact hk
          have hstep : dfsRun adj (fuel + 1) (Frame.loop id (n :: ns) :: rest) st =
              dfsRun adj fuel (Frame.loop id ns :: rest) st := by
            simp [dfsRun, hkf]
          rw [hstep] at hrun
          exact ih _ _ _ hinvNext hsound hrun

/-- Soundness of the top-level loop. -/
theorem visitAll_sound (adj : List (String × List String)) (fuel : Nat) :
    ∀ (keys : List String) (st st1 : DfsState),
      (∀ x ∈ st.cycleNodes, Relation.TransGen (fun a b => b ∈ depsOf adj a) x x) →
      st.stack = [] →
      visitAll adj fuel keys st = some st1 →
      ∀ x ∈ st1.cycleNodes, Relation.TransGen (fun a b => b ∈ depsOf adj a) x x := by
  intro keys
  induction keys with
  | nil =>
    intro st st1 hsound hstack hrun
    have heq : st = st1 := by
      have : some st = some st1 := hrun
      injection this
    subst heq
    exact hsound
  | cons k rest ih =>
    intro st st1 hsound hstack hrun
    simp only [visitAll] at hrun
    by_cases hw : st.colors k = Color.white
    · rw [if_pos hw] at hrun
      cases hd : dfsRun adj fuel [Frame.call k] st with
      | none => rw [hd] at hrun; cases hrun
      | some stx =>
        rw [hd] at hrun
        have hsx := dfsRun_sound adj fuel [Frame.call k] st stx ?_ hsound hd
        · exact ih stx st1 hsx.1 hsx.2 hrun
        · refine WorkInv.call k [] st.stack ?_ (WorkInv.nil st.stack hstack)
          rw [hstack]
          exact List.chain'_singleton k
    · rw [if_neg hw] at hrun
      exact ih st st1 hsound hstack hrun

/-- Soundness of `detectCycles`: every recorded cycle id is reachable from
itself along one or more dependency edges of the batch. -/
theorem detectCycles_sound (tasks : List AiTask) (x : String)
    (hx : x ∈ detectCycles tasks) : Relation.TransGen (depEdge tasks) x x := by
  unfold detectCycles at hx
  cases hP : detectCyclesP (taskPairs tasks) with
  | none => rw [hP] at hx; cases hx
  | some cyc =>
    rw [hP] at hx
    simp only [detectCyclesP] at hP
    cases hvis : visitAll (buildAdj (taskPairs tasks))
        (1 + adjSize (buildAdj (taskPairs tasks)))
        ((buildAdj (taskPairs tasks)).map (fun p => p.1)) initState with
    | none => rw [hvis] at hP; cases hP
    | some st1 =>
      rw [hvis] at hP
      have hcyc : st1.cycleNodes = cyc := by
        have : some st1.cycleNodes = some cyc := hP
        injection this
      have hsound := visitAll_sound (buildAdj (taskPairs tasks)) _ _ initState st1
        (by intro y hy; cases hy) rfl hvis
      have hx1 : x ∈ st1.cycleNodes := by rw [hcyc]; exact hx
      refine Relation.TransGen.mono ?_ (hsound x hx1)
      intro a b hab
      unfold depsOf at hab
      cases hl : List.lookup a (buildAdj (taskPairs tasks)) with
      | none => rw [hl] at hab; cases hab
      | some deps =>
        rw [hl] at hab
        have hmem := lookup_buildAdj_mem _ _ _ hl
        obtain ⟨t, ht, hpair⟩ := List.mem_map.mp hmem
        refine ⟨t, ht, ?_, ?_⟩
        · have := congrArg Prod.fst hpair
          simpa using this
        · have hdeps : t.dependencies = deps := by
            have := congrArg Prod.snd hpair
            simpa using this
          rw [hdeps]
          simpa using hab

/-- C1 (amended): a task's output status is `error` only if it participates in
a directed cycle of the batch's dependency graph — equivalently, every task not
on any cycle gets status `ok`.  The converse direction of the original claim is
false (see the counterexample): a task lying on a cycle can still receive
status `ok` when its cycle is only discovered through an edge into an already
fully-explored (BLACK) node. -/
theorem markCyclicTasks_error_only_if_cyclic (tasks : List AiTask) (t : AiTaskWithStatus)
    (ht : t ∈ markCyclicTasks tasks) (herr : t.status = Status.error) :
    Relation.TransGen (depEdge tasks) t.id t.id := by
  simp only [markCyclicTasks] at ht
  obtain ⟨task, htask, heq⟩ := List.mem_map.mp ht
  subst heq
  dsimp only at herr ⊢
  by_cases hc : (detectCycles tasks).contains task.id = true
  · exact detectCycles_sound tasks task.id (List.elem_iff.mp hc)
  · rw [Bool.not_eq_true] at hc
    rw [hc] at herr
    simp at herr

/-- Witness for C1 (amended) on the self-loop batch `a→a`: the task is marked
`error` and indeed lies on a cycle. -/
theorem markCyclicTasks_error_only_if_cyclic_witness :
    Relation.TransGen (depEdge [⟨"a", ["a"], Priority.low⟩]) "a" "a" :=
  markCyclicTasks_error_only_if_cyclic [⟨"a", ["a"], Priority.low⟩]
    ⟨"a", ["a"], Priority.low, Status.error⟩ (by decide) (by decide)

/-- Counterexample to C1 as stated: in the batch with edges `1→2`, `2→3`,
`2→4`, `3→1`, `4→3` (a sanitized batch: every dependency id is a task id),
task `4` lies on the directed cycle `4→3→1→2→4`, yet the detector assigns it
status `ok`: when `4` explores its edge to `3`, node `3` is already BLACK and
the edge is ignored, so the "error iff on a cycle" equivalence fails. -/
theorem markCyclicTasks_error_iff_cyclic_false :
    ¬ (∀ t ∈ markCyclicTasks
          [⟨"1", ["2"], Priority.low⟩, ⟨"2", ["3", "4"], Priority.low⟩,
           ⟨"3", ["1"], Priority.low⟩, ⟨"4", ["3"], Priority.low⟩],
        (t.status = Status.error ↔
          Relation.TransGen
            (depEdge [⟨"1", ["2"], Priority.low⟩, ⟨"2", ["3", "4"], Priority.low⟩,
              ⟨"3", ["1"], Priority.low⟩, ⟨"4", ["3"], Priority.low⟩])
            t.id t.id)) := by
  intro hclaim
  have hmem : (⟨"4", ["3"], Priority.low, Status.ok⟩ : AiTaskWithStatus) ∈
      markCyclicTasks
        [⟨"1", ["2"], Priority.low⟩, ⟨"2", ["3", "4"], Priority.low⟩,
         ⟨"3", ["1"], Priority.low⟩, ⟨"4", ["3"], Priority.low⟩] := by
    decide
  have hiff := hclaim _ hmem
  have e43 : depEdge
      [⟨"1", ["2"], Priority.low⟩, ⟨"2", ["3", "4"], Priority.low⟩,
       ⟨"3", ["1"], Priority.low⟩, ⟨"4", ["3"], Priority.low⟩] "4" "3" :=
    ⟨⟨"4", ["3"], Priority.low⟩, by decide, rfl, by decide⟩
  have e31 : depEdge
      [⟨"1", ["2"], Priority.low⟩, ⟨"2", ["3", "4"], Priority.low⟩,
       ⟨"3", ["1"], Priority.low⟩, ⟨"4", ["3"], Priority.low⟩] "3" "1" :=
    ⟨⟨"3", ["1"], Priority.low⟩, by decide, rfl, by decide⟩
  have e12 : depEdge
      [⟨"1", ["2"], Priority.low⟩, ⟨"2", ["3", "4"], Priority.low⟩,
       ⟨"3", ["1"], Priority.low⟩, ⟨"4", ["3"], Priority.low⟩] "1" "2" :=
    ⟨⟨"1", ["2"], Priority.low⟩, by decide, rfl, by decide⟩
  have e24 : depEdge
      [⟨"1", ["2"], Priority.low⟩, ⟨"2", ["3", "4"], Priority.low⟩,
       ⟨"3", ["1"], Priority.low⟩, ⟨"4", ["3"], Priority.low⟩] "2" "4" :=
    ⟨⟨"2", ["3", "4"], Priority.low⟩, by decide, rfl, by decide⟩
  have hcyc := Relation.TransGen.head e43 (Relation.TransGen.head e31
    (Relation.TransGen.head e12 (Relation.TransGen.single e24)))
  have hbad := hiff.mpr hcyc
  exact absurd hbad (by decide)

/-!  Cycle-detector metatheory, part 3: sanitization does not change the
detector's output, because the machine itself skips edges whose target is not
a node (`adjacency.has(neighborId)`). -/

theorem dfsRun_fuel_mono (adj : List (String × List String)) :
    ∀ (f g : Nat), f ≤ g → ∀ (w : List Frame) (st : DfsState) (r : DfsState),
      dfsRun adj f w st = some r → dfsRun adj g w st = some r := by
  intro f
  induction f with
  | zero => intro g _ w st r h; cases h
  | succ f ih =>
    intro g hfg w st r h
    obtain ⟨g', rfl⟩ : ∃ g', g = g' + 1 := ⟨g - 1, by omega⟩
    have hfg' : f ≤ g' := by omega
    match w with
    | [] => exact h
    | Frame.call id :: rest => exact ih g' hfg' _ _ _ h
    | Frame.loop id [] :: rest => exact ih g' hfg' _ _ _ h
    | Frame.loop id (n :: ns) :: rest =>
      by_cases hk : hasKey adj n = true
      · cases hcn : st.colors n with
        | white =>
          have hstep : dfsRun adj (f + 1) (Frame.loop id (n :: ns) :: rest) st =
              dfsRun adj f (Frame.call n :: Frame.loop id ns :: rest) st := by
            simp [dfsRun, hk, hcn]
          have hstep2 : dfsRun adj (g' + 1) (Frame.loop id (n :: ns) :: rest) st =
              dfsRun adj g' (Frame.call n :: Frame.loop id ns :: rest) st := by
            simp [dfsRun, hk, hcn]
          rw [hstep] at h
          rw [hstep2]
          exact ih g' hfg' _ _ _ h
        | gray =>
          have hstep : dfsRun adj (f + 1) (Frame.loop id (n :: ns) :: rest) st =
              dfsRun adj f (Frame.loop id ns :: rest) (markCycle st n) := by
            simp [dfsRun, hk, hcn]
          have hstep2 : dfsRun adj (g' + 1) (Frame.loop id (n :: ns) :: rest) st =
              dfsRun adj g' (Frame.loop id ns :: rest) (markCycle st n) := by
            simp [dfsRun, hk, hcn]
          rw [hstep] at h
          rw [hstep2]
          exact ih g' hfg' _ _ _ h
        | black =>
          have hstep : dfsRun adj (f + 1) (Frame.loop id (n :: ns) :: rest) st =
              dfsRun adj f (Frame.loop id ns :: rest) st := by
            simp [dfsRun, hk, hcn]
          have hstep2 : dfsRun adj (g' + 1) (Frame.loop id (n :: ns) :: rest) st =
              dfsRun adj g' (Frame.loop id ns :: rest) st := by
            simp [dfsRun, hk, hcn]
          rw [hstep] at h
          rw [hstep2]
          exact ih g' hfg' _ _ _ h
      · have hkf : hasKey adj n = false := by rw [Bool.not_eq_true] at hk; exact hk
        have hstep : dfsRun adj (f + 1) (Frame.loop id (n :: ns) :: rest) st =
            dfsRun adj f (Frame.loop id ns :: rest) st := by
          simp [dfsRun, hkf]
        have hstep2 : dfsRun adj (g' + 1) (Frame.loop id (n :: ns) :: rest) st =
            dfsRun adj g' (Frame.loop id ns :: rest) st := by
          simp [dfsRun, hkf]
        rw [hstep] at h
        rw [hstep2]
        exact ih g' hfg' _ _ _ h

/-- Dropping the non-node dependencies a frame still has to scan. -/
def filterFrame (adj : List (String × List String)) : Frame → Frame
  | Frame.call c => Frame.call c
  | Frame.loop i l => Frame.loop i (l.filter (fun d => hasKey adj d))

/-- Simulation: running the machine over the filtered adjacency on the
filtered work list produces the same final state. -/
theorem dfsRun_filter_equiv (adj adjF : List (String × List String))
    (hk : ∀ d, hasKey adjF d = hasKey adj d)
    (hd : ∀ q, depsOf adjF q = (depsOf adj q).filter (fun d => hasKey adj d)) :
    ∀ (fuel : Nat) (w : List Frame) (st : DfsState) (r : DfsState),
      dfsRun adj fuel w st = some r →
      dfsRun adjF fuel (w.map (filterFrame adj)) st = some r := by
  intro fuel
  induction fuel with
  | zero => intro w st r h; cases h
  | succ fuel ih =>
    intro w st r h
    match w with
    | [] => exact h
    | Frame.call id :: rest =>
      have hstep : dfsRun adjF (fuel + 1)
          ((Frame.call id :: rest).map (filterFrame adj)) st =
          dfsRun adjF fuel (Frame.loop id (depsOf adjF id) :: rest.map (filterFrame adj))
            { st with colors := setColor st.colors id Color.gray,
                      stack := st.stack ++ [id] } := rfl
      rw [hstep, hd id]
      exact ih (Frame.loop id (depsOf adj id) :: rest) _ _ h
    | Frame.loop id [] :: rest =>
      have hstep : dfsRun adjF (fuel + 1)
          ((Frame.loop id [] :: rest).map (filterFrame adj)) st =
          dfsRun adjF fuel (rest.map (filterFrame adj))
            { st with colors := setColor st.colors id Color.black,
                      stack := st.stack.dropLast } := rfl
      rw [hstep]
      exact ih rest _ _ h
    | Frame.loop id (n :: ns) :: rest =>
      by_cases hkn : hasKey adj n = true
      · have hfcons : (n :: ns).filter (fun d => hasKey adj d) =
            n :: ns.filter (fun d => hasKey adj d) := by
          rw [List.filter_cons, if_pos (by simp [hkn])]
        cases hcn : st.colors n with
        | white =>
          have hstepL : dfsRun adj (fuel + 1) (Frame.loop id (n :: ns) :: rest) st =
              dfsRun adj fuel (Frame.call n :: Frame.loop id ns :: rest) st := by
            simp [dfsRun, hkn, hcn]
          rw [hstepL] at h
          have hstepR : dfsRun adjF (fuel + 1)
              ((Frame.loop id (n :: ns) :: rest).map (filterFrame adj)) st =
              dfsRun adjF fuel
                ((Frame.call n :: Frame.loop id ns :: rest).map (filterFrame adj)) st := by
            simp only [List.map_cons, filterFrame, hfcons]
            simp [dfsRun, hk n, hkn, hcn]
          rw [hstepR]
          exact ih _ _ _ h
        | gray =>
          have hstepL : dfsRun adj (fuel + 1) (Frame.loop id (n :: ns) :: rest) st =
              dfsRun adj fuel (Frame.loop id ns :: rest) (markCycle st n) := by
            simp [dfsRun, hkn, hcn]
          rw [hstepL] at h
          have hstepR : dfsRun adjF (fuel + 1)
              ((Frame.loop id (n :: ns) :: rest).map (filterFrame adj)) st =
              dfsRun adjF fuel
                ((Frame.loop id ns :: rest).map (filterFrame adj)) (markCycle st n) := by
            simp only [List.map_cons, filterFrame, hfcons]
            simp [dfsRun, hk n, hkn, hcn]
          rw [hstepR]
          exact ih _ _ _ h
        | black =>
          have hstepL : dfsRun adj (fuel + 1) (Frame.loop id (n :: ns) :: rest) st =
              dfsRun adj fuel (Frame.loop id ns :: rest) st := by
            simp [dfsRun, hkn, hcn]
          rw [hstepL] at h
          have hstepR : dfsRun adjF (fuel + 1)
              ((Frame.loop id (n :: ns) :: rest).map (filterFrame adj)) st =
              dfsRun adjF fuel
                ((Frame.loop id ns :: rest).map (filterFrame adj)) st := by
            simp only [List.map_cons, filterFrame, hfcons]
            simp [dfsRun, hk n, hkn, hcn]
          rw [hstepR]
          exact ih _ _ _ h
      · have hkf : hasKey adj n = false := by rw [Bool.not_eq_true] at hkn; exact hkn
        have hfcons : (n :: ns).filter (fun d => hasKey adj d) =
            ns.filter (fun d => hasKey adj d) := by
          rw [List.filter_cons, if_neg (by simp [hkf])]
        have hstepL : dfsRun adj (fuel + 1) (Frame.loop id (n :: ns) :: rest) st =
            dfsRun adj fuel (Frame.loop id ns :: rest) st := by
          simp [dfsRun, hkf]
        rw [hstepL] at h
        have hih := ih (Frame.loop id ns :: rest) _ _ h
        have hsame : (Frame.loop id (n :: ns) :: rest).map (filterFrame adj) =
            (Frame.loop id ns :: rest).map (filterFrame adj) := by
          simp only [List.map_cons, filterFrame, hfcons]
        rw [hsame]
        exact dfsRun_fuel_mono adjF fuel (fuel + 1) (by omega) _ _ _ hih

theorem lookup_foldl_map (f : List String → List String) (ps : List (String × List String)) :
    ∀ (m mF : List (String × List String)),
      (∀ k, List.lookup k mF = Option.map f (List.lookup k m)) →
      ∀ q, List.lookup q
          ((ps.map (fun p => (p.1, f p.2))).foldl (fun m p => mapSet m p.1 p.2) mF) =
        Option.map f (List.lookup q (ps.foldl (fun m p => mapSet m p.1 p.2) m)) := by
  induction ps with
  | nil => intro m mF h q; exact h q
  | cons p rest ih =>
    intro m mF h q
    simp only [List.map_cons, List.foldl_cons]
    apply ih
    intro k
    rw [lookup_mapSet, lookup_mapSet]
    by_cases hk : k = p.1
    · rw [if_pos hk, if_pos hk]
      rfl
    · rw [if_neg hk, if_neg hk]
      exact h k

theorem lookup_buildAdj_map (f : List String → List String) (ps : List (String × List String))
    (q : String) :
    List.lookup q (buildAdj (ps.map (fun p => (p.1, f p.2)))) =
      Option.map f (List.lookup q (buildAdj ps)) :=
  lookup_foldl_map f ps [] [] (fun _ => rfl) q

theorem hasKey_buildAdj_map (f : List String → List String) (ps : List (String × List String))
    (d : String) :
    hasKey (buildAdj (ps.map (fun p => (p.1, f p.2)))) d = hasKey (buildAdj ps) d := by
  unfold hasKey
  rw [lookup_buildAdj_map]
  cases List.lookup d (buildAdj ps) <;> rfl

theorem depsOf_buildAdj_map (f : List String → List String) (hnil : f [] = [])
    (ps : List (String × List String)) (q : String) :
    depsOf (buildAdj (ps.map (fun p => (p.1, f p.2)))) q = f (depsOf (buildAdj ps) q) := by
  unfold depsOf
  rw [lookup_buildAdj_map]
  cases List.lookup q (buildAdj ps) with
  | none => simp [hnil]
  | some deps => rfl

theorem keys_foldl_map (f : List String → List String) (ps : List (String × List String)) :
    ∀ (m mF : List (String × List String)), mF.map Prod.fst = m.map Prod.fst →
      (((ps.map (fun p => (p.1, f p.2))).foldl (fun m p => mapSet m p.1 p.2) mF)).map Prod.fst =
        ((ps.foldl (fun m p => mapSet m p.1 p.2) m)).map Prod.fst := by
  induction ps with
  | nil => intro m mF h; exact h
  | cons p rest ih =>
    intro m mF h
    simp only [List.map_cons, List.foldl_cons]
    apply ih
    rw [mapSet_keys, mapSet_keys, h]

theorem keys_buildAdj_map (f : List String → List String) (ps : List (String × List String)) :
    (buildAdj (ps.map (fun p => (p.1, f p.2)))).map Prod.fst = (buildAdj ps).map Prod.fst :=
  keys_foldl_map f ps [] [] rfl

/-- Top-level equivalence: with the fuel budgets each side computes for
itself, the filtered-adjacency loop reaches the same final state. -/
theorem visitAll_filter_equiv (adj adjF : List (String × List String))
    (hnd : (adjF.map Prod.fst).Nodup)
    (hk : ∀ d, hasKey adjF d = hasKey adj d)
    (hd : ∀ q, depsOf adjF q = (depsOf adj q).filter (fun d => hasKey adj d))
    (F : Nat) :
    ∀ (keys : List String) (st : DfsState) (r : DfsState),
      (∀ k ∈ keys, hasKey adjF k = true) →
      visitAll adj F keys st = some r →
      visitAll adjF (1 + adjSize adjF) keys st = some r := by
  intro keys
  induction keys with
  | nil => intro st r _ h; exact h
  | cons k rest ih =>
    intro st r hkeys h
    simp only [visitAll] at h ⊢
    by_cases hw : st.colors k = Color.white
    · rw [if_pos hw] at h ⊢
      cases hLrun : dfsRun adj F [Frame.call k] st with
      | none => rw [hLrun] at h; cases h
      | some stx =>
        rw [hLrun] at h
        have hFrun : dfsRun adjF F [Frame.call k] st = some stx :=
          dfsRun_filter_equiv adj adjF hk hd F [Frame.call k] st stx hLrun
        have hsuf := dfsRun_isSome adjF hnd (1 + adjSize adjF) [Frame.call k] st
          ⟨hw, hkeys k (List.mem_cons_self _ _), by intro fr hfr; cases hfr⟩
          (by
            have hb := whiteBudget_le_adjSize adjF st.colors
            simp only [workSize, List.map_cons, List.map_nil, frameSize, List.sum_cons,
              List.sum_nil]
            omega)
        obtain ⟨sty, hsty⟩ := Option.isSome_iff_exists.mp hsuf
        have h1 := dfsRun_fuel_mono adjF F (max F (1 + adjSize adjF))
          (Nat.le_max_left _ _) _ _ _ hFrun
        have h2 := dfsRun_fuel_mono adjF (1 + adjSize adjF) (max F (1 + adjSize adjF))
          (Nat.le_max_right _ _) _ _ _ hsty
        have hxy : sty = stx := by
          rw [h1] at h2
          injection h2 with h3
          exact h3.symm
        rw [hsty, hxy]
        exact ih stx r (fun q hq => hkeys q (List.mem_cons_of_mem _ hq)) h
    · rw [if_neg hw] at h ⊢
      exact ih st r (fun q hq => hkeys q (List.mem_cons_of_mem _ hq)) h

/-- The graph data of the sanitized projection of a batch is the batch's own
graph data with each dependency list filtered to the batch's ids. -/
theorem sanitize_taskPairs_eq (tasks : List AiTask) :
    (sanitizeTaskDependencies (tasks.map (fun t => ⟨t.id, t.dependencies⟩))).map
        (fun t => (t.id, t.dependencies)) =
      (taskPairs tasks).map
        (fun p => (p.1, p.2.filter (fun d => ((taskPairs tasks).map Prod.fst).contains d))) := by
  simp only [sanitizeTaskDependencies, taskPairs, List.map_map]
  rfl

/-- Filtering every dependency list down to the node set does not change the
detector's result. -/
theorem detectCyclesP_filter (ps : List (String × List String)) :
    detectCyclesP (ps.map
        (fun p => (p.1, p.2.filter (fun d => ((ps.map Prod.fst)).contains d)))) =
      detectCyclesP ps := by
  have hpred : (fun d => ((ps.map Prod.fst)).contains d) =
      fun d => hasKey (buildAdj ps) d :=
    funext fun d => (hasKey_buildAdj ps d).symm
  rw [hpred]
  have hnd := buildAdj_keys_nodup ps
  have hsome := visitAll_isSome (buildAdj ps) hnd ((buildAdj ps).map Prod.fst) initState
    (fun k hk => (lookup_isSome_iff_mem_keys _ k).mpr hk)
  obtain ⟨st1, hvis⟩ := Option.isSome_iff_exists.mp hsome
  have hkF : ∀ d, hasKey (buildAdj (ps.map
      (fun p => (p.1, p.2.filter (fun d => hasKey (buildAdj ps) d))))) d =
      hasKey (buildAdj ps) d :=
    fun d => hasKey_buildAdj_map (fun l => l.filter (fun d => hasKey (buildAdj ps) d)) ps d
  have hdF : ∀ q, depsOf (buildAdj (ps.map
      (fun p => (p.1, p.2.filter (fun d => hasKey (buildAdj ps) d))))) q =
      (depsOf (buildAdj ps) q).filter (fun d => hasKey (buildAdj ps) d) :=
    fun q => depsOf_buildAdj_map (fun l => l.filter (fun d => hasKey (buildAdj ps) d)) rfl ps q
  have hkeysF : (buildAdj (ps.map
      (fun p => (p.1, p.2.filter (fun d => hasKey (buildAdj ps) d))))).map Prod.fst =
      (buildAdj ps).map Prod.fst :=
    keys_buildAdj_map (fun l => l.filter (fun d => hasKey (buildAdj ps) d)) ps
  have hndF : ((buildAdj (ps.map
      (fun p => (p.1, p.2.filter (fun d => hasKey (buildAdj ps) d))))).map Prod.fst).Nodup :=
    buildAdj_keys_nodup _
  have hvisF := visitAll_filter_equiv (buildAdj ps)
    (buildAdj (ps.map (fun p => (p.1, p.2.filter (fun d => hasKey (buildAdj ps) d)))))
    hndF hkF hdF (1 + adjSize (buildAdj ps)) ((buildAdj ps).map Prod.fst) initState st1
    (fun k hkk => by rw [hkF k]; exact (lookup_isSome_iff_mem_keys _ k).mpr hkk) hvis
  simp only [detectCyclesP]
  rw [hkeysF, hvisF, hvis]

/-- C10: for every batch, the set of cycle-participant ids is the same whether
or not the batch is first passed through the Dependency Sanitizer:
`detectCycles` on the sanitized projection equals `detectCycles` on the
unsanitized batch, because the detector itself skips every edge whose target
id is not a node of the batch, making sanitization redundant for cycle-status
correctness. -/
theorem detectCycles_sanitize_redundant (tasks : List AiTask) :
    detectCyclesD (sanitizeTaskDependencies (tasks.map (fun t => ⟨t.id, t.dependencies⟩))) =
      detectCycles tasks := by
  unfold detectCyclesD detectCycles
  rw [sanitize_taskPairs_eq tasks, detectCyclesP_filter (taskPairs tasks)]

/-!  Hash metatheory: the digest has a fixed shape, so the hex string always
has 64 characters and the hash cannot be injective on all strings. -/

/-- All eight digest words fit in 32 bits. -/
def shaStateLt (s : Sha256State) : Prop :=
  s.a < 2 ^ 32 ∧ s.b < 2 ^ 32 ∧ s.c < 2 ^ 32 ∧ s.d < 2 ^ 32 ∧
  s.e < 2 ^ 32 ∧ s.f < 2 ^ 32 ∧ s.g < 2 ^ 32 ∧ s.h < 2 ^ 32

theorem shaCompress_lt (hs : Sha256State) (block : List Nat) :
    shaStateLt (shaCompress hs block) := by
  refine ⟨?_, ?_, ?_, ?_, ?_, ?_, ?_, ?_⟩ <;>
    exact Nat.mod_lt _ (by norm_num)

theorem foldl_shaCompress_lt (blocks : List (List Nat)) :
    ∀ hs : Sha256State, shaStateLt hs → shaStateLt (blocks.foldl shaCompress hs) := by
  induction blocks with
  | nil => intro hs h; exact h
  | cons b rest ih => intro hs _; exact ih (shaCompress hs b) (shaCompress_lt hs b)

theorem sha256Words_length (m : List Nat) : (sha256Words m).length = 8 := rfl

theorem sha256Words_lt (m : List Nat) : ∀ x ∈ sha256Words m, x < 2 ^ 32 := by
  have hinit : shaStateLt shaInit := by
    refine ⟨?_, ?_, ?_, ?_, ?_, ?_, ?_, ?_⟩ <;> norm_num [shaInit]
  have hfin := foldl_shaCompress_lt (chunks (padMessage m)) shaInit hinit
  obtain ⟨h1, h2, h3, h4, h5, h6, h7, h8⟩ := hfin
  intro x hx
  simp only [sha256Words, List.mem_cons, List.not_mem_nil, or_false] at hx
  rcases hx with rfl | rfl | rfl | rfl | rfl | rfl | rfl | rfl <;> assumption

/-- Big-endian packing of a word list into a single number. -/
def packWords : List Nat → Nat
  | [] => 0
  | x :: l => x * 2 ^ (32 * l.length) + packWords l

theorem packWords_lt : ∀ l : List Nat, (∀ x ∈ l, x < 2 ^ 32) →
    packWords l < 2 ^ (32 * l.length) := by
  intro l
  induction l with
  | nil => intro _; simp [packWords]
  | cons x t ih =>
    intro h
    have hx : x < 2 ^ 32 := h x (List.mem_cons_self _ _)
    have ht := ih (fun y hy => h y (List.mem_cons_of_mem _ hy))
    simp only [packWords, List.length_cons]
    have hexp : 2 ^ (32 * (t.length + 1)) = 2 ^ 32 * 2 ^ (32 * t.length) := by
      rw [← pow_add]
      ring_nf
    calc x * 2 ^ (32 * t.length) + packWords t
        < x * 2 ^ (32 * t.length) + 2 ^ (32 * t.length) := by omega
      _ = (x + 1) * 2 ^ (32 * t.length) := by ring
      _ ≤ 2 ^ 32 * 2 ^ (32 * t.length) := Nat.mul_le_mul_right _ (by omega)
      _ = 2 ^ (32 * (t.length + 1)) := hexp.symm

theorem packWords_inj : ∀ l1 l2 : List Nat, l1.length = l2.length →
    (∀ x ∈ l1, x < 2 ^ 32) → (∀ x ∈ l2, x < 2 ^ 32) →
    packWords l1 = packWords l2 → l1 = l2 := by
  intro l1
  induction l1 with
  | nil =>
    intro l2 hlen _ _ _
    cases l2 with
    | nil => rfl
    | cons y s => simp at hlen
  | cons x t ih =>
    intro l2 hlen h1 h2 hp
    cases l2 with
    | nil => simp at hlen
    | cons y s =>
      have hts : t.length = s.length := by simpa using hlen
      simp only [packWords] at hp
      rw [hts] at hp
      have hpt := packWords_lt t (fun z hz => h1 z (List.mem_cons_of_mem _ hz))
      have hps := packWords_lt s (fun z hz => h2 z (List.mem_cons_of_mem _ hz))
      rw [hts] at hpt
      have hB : 0 < 2 ^ (32 * s.length) := Nat.pos_pow_of_pos _ (by omega)
      have e1 : (x * 2 ^ (32 * s.length) + packWords t) / 2 ^ (32 * s.length) = x := by
        rw [Nat.add_comm, Nat.add_mul_div_right _ _ hB, Nat.div_eq_of_lt hpt]
        omega
      have e2 : (y * 2 ^ (32 * s.length) + packWords s) / 2 ^ (32 * s.length) = y := by
        rw [Nat.add_comm, Nat.add_mul_div_right _ _ hB, Nat.div_eq_of_lt hps]
        omega
      have hxy : x = y := by rw [← e1, ← e2, hp]
      subst hxy
      have hpts : packWords t = packWords s := by omega
      rw [ih s hts (fun z hz => h1 z (List.mem_cons_of_mem _ hz))
        (fun z hz => h2 z (List.mem_cons_of_mem _ hz)) hpts]

theorem hexFlatten_length : ∀ wl : List Nat, ((wl.map hexWord32).flatten).length = 8 * wl.length := by
  intro wl
  induction wl with
  | nil => rfl
  | cons w t ih =>
    simp only [List.map_cons, List.flatten_cons, List.length_append, ih, List.length_cons]
    have h8 : (hexWord32 w).length = 8 := rfl
    rw [h8]
    ring

theorem hashTranscript_length (s : String) : (hashTranscript s).length = 64 := by
  have hmk : (hashTranscript s).length =
      (((sha256Words (utf8Bytes s)).map hexWord32).flatten).length := rfl
  rw [hmk, hexFlatten_length, sha256Words_length]

/-- C8 (amended): the transcript hash is a pure deterministic function of the
transcript text — equal texts always yield equal hashes — and its value is a
fixed-length 64-character hex digest.  Injectivity over all strings (the
forward direction of the original "same hash iff same text") necessarily fails
for a fixed-length digest; see the counterexample. -/
theorem hashTranscript_deterministic (t1 t2 : String) :
    (t1 = t2 → hashTranscript t1 = hashTranscript t2) ∧ (hashTranscript t1).length = 64 :=
  ⟨fun h => by rw [h], hashTranscript_length t1⟩

/-- Witness for C8 (amended) at the concrete transcript "a". -/
theorem hashTranscript_deterministic_witness :
    (hashTranscript "a").length = 64 ∧ hashTranscript "a" = hashTranscript "a" :=
  ⟨(hashTranscript_deterministic "a" "a").2, (hashTranscript_deterministic "a" "a").1 rfl⟩

/-- Counterexample to C8 as stated: `hashTranscript` maps the infinitely many
distinct transcripts `"a" * n` into the finite space of 256-bit digests, so by
the pigeonhole principle two distinct texts share a hash and the equivalence
"hash(T1) = hash(T2) iff T1 = T2" is false. -/
theorem hashTranscript_injective_false :
    ¬ (∀ t1 t2 : String, hashTranscript t1 = hashTranscript t2 ↔ t1 = t2) := by
  intro hclaim
  have hfin : ∀ n : ℕ,
      packWords (sha256Words (utf8Bytes (String.mk (List.replicate n 'a')))) < 2 ^ 256 := by
    intro n
    have hlt := packWords_lt (sha256Words (utf8Bytes (String.mk (List.replicate n 'a'))))
      (sha256Words_lt _)
    rw [sha256Words_length] at hlt
    norm_num at hlt
    exact hlt
  obtain ⟨m, n, hmn, heq⟩ := Finite.exists_ne_map_eq_of_infinite
    (fun k : ℕ =>
      (⟨packWords (sha256Words (utf8Bytes (String.mk (List.replicate k 'a')))), hfin k⟩ :
        Fin (2 ^ 256)))
  have hpack : packWords (sha256Words (utf8Bytes (String.mk (List.replicate m 'a')))) =
      packWords (sha256Words (utf8Bytes (String.mk (List.replicate n 'a')))) := by
    have := congrArg Fin.val heq
    simpa using this
  have hwords := packWords_inj _ _
    (by rw [sha256Words_length, sha256Words_length])
    (sha256Words_lt _) (sha256Words_lt _) hpack
  have hhash : hashTranscript (String.mk (List.replicate m 'a')) =
      hashTranscript (String.mk (List.replicate n 'a')) := by
    unfold hashTranscript
    rw [hwords]
  have hstr := (hclaim _ _).mp hhash
  have hm : m = n := by
    have hlen := congrArg String.length hstr
    have hm1 : (String.mk (List.replicate m 'a')).length = m := by
      simp [String.length]
    have hm2 : (String.mk (List.replicate n 'a')).length = n := by
      simp [String.length]
    rw [hm1, hm2] at hlen
    exact hlen
  exact hmn hm
